import Mathlib

/-
Verification of the bobsled record store: order-preserving key codec,
prefix/range boundary algorithm, and the reference in-memory BTreeMap
backend, shallowly embedded over byte lists (bytes as `Nat < 256`).
-/

set_option maxHeartbeats 1000000
set_option maxRecDepth 8192

namespace Bobsled

/-- Byte-lexicographic strict order on byte strings, as produced by the
`Ord` instance on Rust byte slices: elementwise comparison on the common
length, ties broken by length (a strict proper initial segment is smaller). -/
def lexLt : List Nat → List Nat → Bool
  | _, [] => false
  | [], _ :: _ => true
  | a :: xs, b :: ys => if a < b then true else if b < a then false else lexLt xs ys

/-- Every byte of the string is strictly below 256. -/
def bytesValid (l : List Nat) : Bool := l.all (fun b => b < 256)

/-- The pop-and-increment loop of `scan_prefix` / `scan_range` in
`src/store.rs`, acting on the reversed byte string: `end.pop()` takes the
head of the reversed list; a byte strictly below `u8::MAX` is incremented
and pushed back, a maximal byte is discarded and the loop continues. -/
def carryIncRev : List Nat → Option (List Nat)
  | [] => none
  | b :: rest => if b < 255 then some ((b + 1) :: rest) else carryIncRev rest

/-- Exclusive upper bound computed from a byte prefix by the carry-increment
loop of `src/store.rs` (`none` when every byte is maximal or the prefix is
empty, in which case the scanned range has no upper bound). -/
def upperBound (p : List Nat) : Option (List Nat) :=
  (carryIncRev p.reverse).map List.reverse

/-- Structural (head-first) restatement of the carry-increment loop, used
only inside proofs; `upperBound_eq_carryIncAux` identifies it with the
source-faithful `upperBound`. -/
def carryIncAux : List Nat → Option (List Nat)
  | [] => none
  | b :: rest =>
    match carryIncAux rest with
    | some u => some (b :: u)
    | none => if b < 255 then some [b + 1] else none

/-- A raw byte bound, mirroring `std::ops::Bound<&[u8]>` as handed to
`BTreeMap::range`. -/
inductive ByteBound where
  | included (b : List Nat)
  | excluded (b : List Nat)
  | unbounded
  deriving DecidableEq

/-- Whether key `k` lies on or after the start bound. -/
def startAdmits : ByteBound → List Nat → Bool
  | .included p, k => !lexLt k p
  | .excluded p, k => lexLt p k
  | .unbounded, _ => true

/-- Whether key `k` lies on or before the end bound. -/
def endAdmits : ByteBound → List Nat → Bool
  | .included p, k => !lexLt p k
  | .excluded p, k => lexLt k p
  | .unbounded, _ => true

/-- The reference backend's `BTreeMap<Vec<u8>, Vec<u8>>`, modelled as an
association list of (key bytes, value bytes) pairs kept in ascending
byte-lexicographic key order. -/
abbrev ByteStore := List (List Nat × List Nat)

/-- `BTreeMap::range` over the model: the entries whose keys fall between
the two bounds, in store order. -/
def btreeRange (store : ByteStore) (lo hi : ByteBound) : ByteStore :=
  store.filter (fun e => startAdmits lo e.1 && endAdmits hi e.1)

/-- `scan_prefix` of the `ReadStore` impl for `&BTreeMap` in `src/store.rs`:
carry-increment the encoded prefix; on success scan
`[prefix, incremented)` with the upper end excluded, otherwise scan from
the prefix with no upper bound. -/
def storePrefixScan (store : ByteStore) (p : List Nat) : ByteStore :=
  match upperBound p with
  | some u => btreeRange store (.included p) (.excluded u)
  | none => btreeRange store (.included p) .unbounded

/-- `Record::scan_prefix` in `src/lib.rs`: same carry-increment loop, but
the computed upper bound is passed as `Bound::Included`. -/
def recordPrefixScan (store : ByteStore) (p : List Nat) : ByteStore :=
  match upperBound p with
  | some u => btreeRange store (.included p) (.included u)
  | none => btreeRange store (.included p) .unbounded

/-- End-bound translation performed by `scan_range` of the `ReadStore` impl
for `&BTreeMap` in `src/store.rs`: an excluded or unbounded end passes
through; an included end is carry-incremented into an excluded bound, or
into an unbounded one when every byte is maximal (or there are no bytes). -/
def storeRangeEnd : ByteBound → ByteBound
  | .excluded e => .excluded e
  | .included e =>
    match upperBound e with
    | some u => .excluded u
    | none => .unbounded
  | .unbounded => .unbounded

/-- End-bound translation performed by `Record::scan_range` in
`src/lib.rs`: every bound constructor passes through unchanged around the
encoding step (included stays included on the exact encoded bytes). -/
def recordRangeEnd : ByteBound → ByteBound
  | .excluded e => .excluded e
  | .included e => .included e
  | .unbounded => .unbounded

/-- `scan_range` of the `ReadStore` impl for `&BTreeMap` in `src/store.rs`,
after the bound values have been encoded: the start bound passes through
unchanged and the end bound goes through `storeRangeEnd`. -/
def storeRangeScan (store : ByteStore) (lo hi : ByteBound) : ByteStore :=
  btreeRange store lo (storeRangeEnd hi)

/-- Big-endian byte string of a natural number over `n` bytes, as produced
by the `to_be_bytes` methods used by every fixed-width codec. -/
def beBytes : Nat → Nat → List Nat
  | 0, _ => []
  | n + 1, x => (x / 256 ^ n % 256) :: beBytes n x

/-- Value of a big-endian byte string, as computed by `from_be_bytes`. -/
def beVal (l : List Nat) : Nat := l.foldl (fun acc b => acc * 256 + b) 0

/-- The `DataTooShort` decode error of `src/lib.rs`, carrying the expected
and the actual byte count. -/
structure DataTooShort where
  expected : Nat
  actual : Nat
  deriving DecidableEq

/-- `encode` of the unsigned fixed-width integers (`impl_uint_key!` in
`src/key/mod.rs`): raw big-endian bytes, `n` = byte width of the type. -/
def uintEncode (n v : Nat) : List Nat := beBytes n v

/-- `try_decode` of the unsigned fixed-width integers (`impl_uint_key!`):
error when fewer than `n` bytes remain, otherwise split off `n` bytes and
read them big-endian. -/
def uintDecode (n : Nat) (bytes : List Nat) : Except DataTooShort (Nat × List Nat) :=
  if bytes.length < n then .error ⟨n, bytes.length⟩
  else .ok (beVal (bytes.take n), bytes.drop n)

/-- XOR the first byte with `0x80`, as `bytes[0] ^= 0x80` does in
`impl_iint_key!`. -/
def flipHead : List Nat → List Nat
  | [] => []
  | b :: rest => (b ^^^ 128) :: rest

/-- XOR every byte with `0xFF`, as the negative branch of
`impl_float_key!` does. -/
def complement (l : List Nat) : List Nat := l.map (fun b => b ^^^ 255)

/-- Two's-complement `n`-byte representative of a signed integer, the value
whose big-endian bytes `to_be_bytes` yields on an `n`-byte signed type. -/
def twosComplement (n : Nat) (v : Int) : Nat := (v % ((2 : Int) ^ (8 * n))).toNat

/-- `encode` of the signed fixed-width integers (`impl_iint_key!` in
`src/key/mod.rs`): big-endian two's-complement bytes with the sign bit of
the first byte flipped. -/
def iintEncode (n : Nat) (v : Int) : List Nat := flipHead (beBytes n (twosComplement n v))

/-- Signed reading of an `n`-byte unsigned big-endian value, as
`from_be_bytes` performs on a signed type. -/
def asSigned (n m : Nat) : Int :=
  if m < 2 ^ (8 * n - 1) then (m : Int) else (m : Int) - 2 ^ (8 * n)

/-- `try_decode` of the signed fixed-width integers (`impl_iint_key!`):
check the length, split off `n` bytes, XOR the first byte with `0x80`, and
read the result as two's complement. -/
def iintDecode (n : Nat) (bytes : List Nat) : Except DataTooShort (Int × List Nat) :=
  if bytes.length < n then .error ⟨n, bytes.length⟩
  else .ok (asSigned n (beVal (flipHead (bytes.take n))), bytes.drop n)

/-- `encode` of the float types (`impl_float_key!` in `src/key/mod.rs`),
acting on the `n`-byte IEEE-754 bit pattern `p` of the value: if the sign
bit of the first byte is clear, set it; otherwise invert every byte. -/
def floatEncode (n p : Nat) : List Nat :=
  let bs := beBytes n p
  if bs.headD 0 &&& 128 == 0 then flipHead bs else complement bs

/-- `try_decode` of the float types (`impl_float_key!`): check the length,
split off `n` bytes, undo the sign transform (clear a set sign bit,
otherwise invert every byte), and return the bit pattern read big-endian. -/
def floatDecode (n : Nat) (bytes : List Nat) : Except DataTooShort (Nat × List Nat) :=
  if bytes.length < n then .error ⟨n, bytes.length⟩
  else
    let data := bytes.take n
    let data := if data.headD 0 &&& 128 == 128 then flipHead data else complement data
    .ok (beVal data, bytes.drop n)

/-- Arithmetic image of the float sign transform on the whole `n`-byte
pattern, used to relate `floatEncode` to `beBytes`. -/
def floatEncVal (n p : Nat) : Nat :=
  if p < 2 ^ (8 * n - 1) then p + 2 ^ (8 * n - 1) else 2 ^ (8 * n) - 1 - p

/-- Magnitude field of an `n`-byte IEEE-754 bit pattern (everything except
the sign bit). -/
def floatMag (n p : Nat) : Nat := p % 2 ^ (8 * n - 1)

/-- Sign bit of an `n`-byte IEEE-754 bit pattern. -/
def floatNeg (n p : Nat) : Bool := decide (2 ^ (8 * n - 1) ≤ p)

/-- Modelled from the spec: the natural order Rust's `<` places on float
values, expressed on `n`-byte IEEE-754 bit patterns. `inf` is the magnitude
of the format's infinity pattern; a pattern whose magnitude exceeds it is a
NaN and compares false against everything. Otherwise values compare by
sign and then by magnitude (magnitude order of same-sign IEEE-754 patterns
is their numeric order), with `-0.0` and `+0.0` equal. -/
def floatLt (n inf p q : Nat) : Bool :=
  if inf < floatMag n p || inf < floatMag n q then false
  else
    match floatNeg n p, floatNeg n q with
    | true, true => floatMag n q < floatMag n p
    | true, false => !(floatMag n p == 0 && floatMag n q == 0)
    | false, true => false
    | false, false => floatMag n p < floatMag n q

/-- `encode` of the unit key `()` in `src/key/mod.rs`: an empty byte
array. -/
def unitEncode : List Nat := []

/-- `try_decode` of the unit key `()`: infallibly return `()` and the whole
input as remainder. -/
def unitDecode (bytes : List Nat) : Except Empty (Unit × List Nat) := .ok ((), bytes)

/-- `encode` of the fixed-size byte array `[u8; N]`: the identity. -/
def arrayEncode (l : List Nat) : List Nat := l

/-- `try_decode` of `[u8; N]`: error when fewer than `N` bytes remain,
otherwise split at `N`. -/
def arrayDecode (N : Nat) (bytes : List Nat) : Except DataTooShort (List Nat × List Nat) :=
  if bytes.length < N then .error ⟨N, bytes.length⟩
  else .ok (bytes.take N, bytes.drop N)

/-- Well-formed UTF-8, the acceptance predicate of `std::str::from_utf8`:
ASCII bytes stand alone; lead bytes `0xC2..=0xDF`, `0xE0..=0xEF` and
`0xF0..=0xF4` take one, two and three continuation bytes in `0x80..=0xBF`,
with the restricted ranges after `0xE0`, `0xED`, `0xF0` and `0xF4` that
exclude overlong forms, surrogates and values beyond `0x10FFFF`. -/
def utf8Valid : List Nat → Bool
  | [] => true
  | b :: rest =>
    if b ≤ 0x7F then utf8Valid rest
    else if 0xC2 ≤ b ∧ b ≤ 0xDF then
      match rest with
      | c1 :: r => (0x80 ≤ c1 && c1 ≤ 0xBF) && utf8Valid r
      | [] => false
    else if b = 0xE0 then
      match rest with
      | c1 :: c2 :: r =>
        (0xA0 ≤ c1 && c1 ≤ 0xBF) && (0x80 ≤ c2 && c2 ≤ 0xBF) && utf8Valid r
      | _ => false
    else if b = 0xED then
      match rest with
      | c1 :: c2 :: r =>
        (0x80 ≤ c1 && c1 ≤ 0x9F) && (0x80 ≤ c2 && c2 ≤ 0xBF) && utf8Valid r
      | _ => false
    else if 0xE1 ≤ b ∧ b ≤ 0xEF then
      match rest with
      | c1 :: c2 :: r =>
        (0x80 ≤ c1 && c1 ≤ 0xBF) && (0x80 ≤ c2 && c2 ≤ 0xBF) && utf8Valid r
      | _ => false
    else if b = 0xF0 then
      match rest with
      | c1 :: c2 :: c3 :: r =>
        (0x90 ≤ c1 && c1 ≤ 0xBF) && (0x80 ≤ c2 && c2 ≤ 0xBF) &&
          (0x80 ≤ c3 && c3 ≤ 0xBF) && utf8Valid r
      | _ => false
    else if 0xF1 ≤ b ∧ b ≤ 0xF3 then
      match rest with
      | c1 :: c2 :: c3 :: r =>
        (0x80 ≤ c1 && c1 ≤ 0xBF) && (0x80 ≤ c2 && c2 ≤ 0xBF) &&
          (0x80 ≤ c3 && c3 ≤ 0xBF) && utf8Valid r
      | _ => false
    else if b = 0xF4 then
      match rest with
      | c1 :: c2 :: c3 :: r =>
        (0x80 ≤ c1 && c1 ≤ 0x8F) && (0x80 ≤ c2 && c2 ≤ 0xBF) &&
          (0x80 ≤ c3 && c3 ≤ 0xBF) && utf8Valid r
      | _ => false
    else false

/-- The `StringDecodeError` of `src/key/mod.rs`. -/
inductive StrDecodeError where
  | utf8Error
  | dataTooShort (e : DataTooShort)
  deriving DecidableEq

/-- `encode` for `str`/`String` in `src/key/mod.rs`: the byte length as a
big-endian native word (8 bytes), followed by the UTF-8 bytes. A Rust
`String` is modelled as its list of UTF-8 bytes. -/
def stringEncode (s : List Nat) : List Nat := beBytes 8 s.length ++ s

/-- `String::try_decode` in `src/key/mod.rs`: read an 8-byte big-endian
length header, error if fewer bytes than declared remain, split the
declared count off and validate them as UTF-8. -/
def stringDecode (bytes : List Nat) : Except StrDecodeError (List Nat × List Nat) :=
  if bytes.length < 8 then .error (.dataTooShort ⟨8, bytes.length⟩)
  else
    let len := beVal (bytes.take 8)
    let rest := bytes.drop 8
    if rest.length < len then .error (.dataTooShort ⟨len, rest.length⟩)
    else if utf8Valid (rest.take len) then .ok (rest.take len, rest.drop len)
    else .error .utf8Error

/-- The per-field-tagged decode error of a two-field tuple
(`TupleDecodeErrorAB` generated by `impl_tuple_key!`). -/
inductive Tuple2DecodeError (ea eb : Type) where
  | decodeAError (e : ea)
  | decodeBError (e : eb)
  deriving DecidableEq

/-- `encode` of the tuple `(u64, String)` under `impl_tuple_key!`:
concatenation of the field encodings in declared order. -/
def pairU64StrEncode (v : Nat) (s : List Nat) : List Nat :=
  uintEncode 8 v ++ stringEncode s

/-- `try_decode` of the tuple `(u64, String)` under `impl_tuple_key!`:
decode the first field, feed the remainder to the second, tag the first
failure by field position. -/
def pairU64StrDecode (bytes : List Nat) :
    Except (Tuple2DecodeError DataTooShort StrDecodeError) ((Nat × List Nat) × List Nat) :=
  match uintDecode 8 bytes with
  | .error e => .error (.decodeAError e)
  | .ok (v, rest) =>
    match stringDecode rest with
    | .error e => .error (.decodeBError e)
    | .ok (s, rest2) => .ok ((v, s), rest2)
/-- `encode` of a tuple under `impl_tuple_key!` in `src/key/mod.rs`:
concatenation of the per-field encodings in declared order. A tuple value
is abstracted by the list of its field encodings. -/
def tupleEncode (fields : List (List Nat)) : List Nat := fields.flatten

/-- The prefix lengths for which the `impl_tuple_prefix!` macro in
`bobsled-macros/src/lib.rs` declares a `PrefixKey` impl: its loop pops the
last field, stops once no fields remain, and emits one impl per
intermediate non-empty field list, i.e. lengths `n-1, ..., 1` for an
`n`-field tuple. -/
def tuplePrefixDeclared : Nat → List Nat
  | 0 => []
  | n + 1 => if n = 0 then [] else n :: tuplePrefixDeclared n

/-- The write-side error of `src/store.rs` (`WriteStoreError<S, V>`). -/
inductive WriteStoreError (σ ε : Type) where
  | storeError (e : σ)
  | encodeError (e : ε)
  deriving DecidableEq

/-- `BTreeMap::insert` on the sorted association-list model: walk to the
ordered position, replace the payload when the key is already present,
otherwise splice the new entry in (an upsert, never a second entry). -/
def btreeInsert : ByteStore → List Nat → List Nat → ByteStore
  | [], k, v => [(k, v)]
  | (k2, v2) :: rest, k, v =>
    if lexLt k k2 = true then (k, v) :: (k2, v2) :: rest
    else if k = k2 then (k, v) :: rest
    else (k2, v2) :: btreeInsert rest k v

/-- `BTreeMap::remove` on the model: drop the entry with the given key, if
any. -/
def btreeRemove : ByteStore → List Nat → ByteStore
  | [], _ => []
  | (k2, v2) :: rest, k => if k = k2 then rest else (k2, v2) :: btreeRemove rest k

/-- `WriteStore::persist` for `&mut BTreeMap` in `src/store.rs`: run
`Record::try_encode`; on failure return the encode error with the store
untouched; otherwise insert the encoded key and the value bytes.
`tryEncode` and `encodeKey` stand for the record type's `try_encode` and
its key type's `encode`; the store-error type is `Infallible`, modelled as
`Empty`. -/
def btreePersist {ρ κ ε : Type} (tryEncode : ρ → Except ε (κ × List Nat))
    (encodeKey : κ → List Nat) (store : ByteStore) (r : ρ) :
    Except (WriteStoreError Empty ε) Unit × ByteStore :=
  match tryEncode r with
  | .error e => (.error (.encodeError e), store)
  | .ok (k, v) => (.ok Unit.unit, btreeInsert store (encodeKey k) v)

/-- `WriteStore::remove` for `&mut BTreeMap` in `src/store.rs`: encode the
key, remove it from the map, and succeed unconditionally. -/
def btreeRemoveOp {κ ε : Type} (encodeKey : κ → List Nat) (store : ByteStore) (k : κ) :
    Except (WriteStoreError Empty ε) Unit × ByteStore :=
  (.ok Unit.unit, btreeRemove store (encodeKey k))

/-- Number of stored entries carrying the given key. -/
def countKey (store : ByteStore) (k : List Nat) : Nat :=
  (store.filter (fun e => e.1 == k)).length

/-- Payload of the first stored entry carrying the given key, if any. -/
def lookupKey (store : ByteStore) (k : List Nat) : Option (List Nat) :=
  List.lookup k store

/-- Keys of the store in ascending order (`Pairwise` of this list is the
`BTreeMap` sortedness invariant). -/
def storeSorted (store : ByteStore) : Prop :=
  store.Pairwise (fun a b => lexLt a.1 b.1 = true)

/-- The read-side error of `src/store.rs` (`ReadStoreError<S, K, V>`). -/
inductive ReadStoreError (σ κe νe : Type) where
  | storeError (e : σ)
  | keyDecodeErr (e : κe)
  | valueDecodeError (e : νe)
  deriving DecidableEq

/-- The body of `BTreeStoreIter::next` in `src/store.rs` applied to one
stored entry: decode the key (discarding the remainder), then decode the
record from key and value bytes, wrapping either failure in the matching
error constructor. `decodeKey` stands for `DecodeKey::try_decode` of the
key type, `decodeRecord` for `Record::try_decode`. -/
def decodeEntry {κ κe ρ νe : Type} (decodeKey : List Nat → Except κe (κ × List Nat))
    (decodeRecord : κ → List Nat → Except νe ρ) (e : List Nat × List Nat) :
    Except (ReadStoreError Empty κe νe) ρ :=
  match decodeKey e.1 with
  | .error err => .error (.keyDecodeErr err)
  | .ok (key, _) =>
    match decodeRecord key e.2 with
    | .ok record => .ok record
    | .error err => .error (.valueDecodeError err)

/-- `BTreeStoreIter::next`: take the next stored entry, if any, decode it
into this call's item, and keep iterating over the remaining entries. -/
def btreeIterNext {κ κe ρ νe : Type} (decodeKey : List Nat → Except κe (κ × List Nat))
    (decodeRecord : κ → List Nat → Except νe ρ) :
    ByteStore → Option (Except (ReadStoreError Empty κe νe) ρ × ByteStore)
  | [] => none
  | e :: rest => some (decodeEntry decodeKey decodeRecord e, rest)

/-- Every item produced by calling `BTreeStoreIter::next` until exhaustion
(`runIter_eq_next` ties this to `btreeIterNext` step by step). -/
def runIter {κ κe ρ νe : Type} (decodeKey : List Nat → Except κe (κ × List Nat))
    (decodeRecord : κ → List Nat → Except νe ρ) :
    ByteStore → List (Except (ReadStoreError Empty κe νe) ρ)
  | [] => []
  | e :: rest => decodeEntry decodeKey decodeRecord e :: runIter decodeKey decodeRecord rest

end Bobsled



namespace Bobsled

theorem carryIncRev_append (xs : List Nat) (b : Nat) :
    carryIncRev (xs ++ [b]) =
      match carryIncRev xs with
      | some u => some (u ++ [b])
      | none => if b < 255 then some [b + 1] else none := by
  induction xs with
  | nil => simp [carryIncRev]
  | cons x xs ih =>
    by_cases hx : x < 255
    · simp [carryIncRev, hx]
    · rw [List.cons_append, carryIncRev, if_neg hx, ih, carryIncRev, if_neg hx]

theorem upperBound_eq_carryIncAux (p : List Nat) : upperBound p = carryIncAux p := by
  induction p with
  | nil => rfl
  | cons b rest ih =>
    unfold upperBound carryIncAux
    rw [List.reverse_cons, carryIncRev_append]
    unfold upperBound at ih
    cases h : carryIncRev rest.reverse with
    | some u =>
      rw [h] at ih
      simp at ih
      simp [← ih]
    | none =>
      rw [h] at ih
      simp at ih
      rw [← ih]
      by_cases hb : b < 255 <;> simp [hb]

theorem lexLt_cons_eq (x y : Nat) (xs ys : List Nat) :
    lexLt (x :: xs) (y :: ys) =
      if x < y then true else if y < x then false else lexLt xs ys := rfl

theorem lexLt_nil_right (a : List Nat) : lexLt a [] = false := by
  cases a <;> rfl

theorem lexLt_cons_cons (x y : Nat) (xs ys : List Nat) :
    lexLt (x :: xs) (y :: ys) = true ↔ x < y ∨ (x = y ∧ lexLt xs ys = true) := by
  rw [lexLt_cons_eq]
  split_ifs with h1 h2
  · simp [h1]
  · simp; omega
  · have hxy : x = y := by omega
    subst hxy
    constructor
    · intro h
      exact Or.inr ⟨rfl, h⟩
    · rintro (h | ⟨_, h⟩)
      · omega
      · exact h

theorem lexLt_irrefl (a : List Nat) : lexLt a a = false := by
  induction a with
  | nil => rfl
  | cons x xs ih =>
    rw [Bool.eq_false_iff]
    intro h
    rw [lexLt_cons_cons] at h
    rcases h with h | ⟨_, h⟩
    · omega
    · rw [ih] at h; cases h

theorem lexLt_trichotomy (a b : List Nat) :
    lexLt a b = true ∨ a = b ∨ lexLt b a = true := by
  induction a generalizing b with
  | nil => cases b <;> simp [lexLt]
  | cons x xs ih =>
    cases b with
    | nil => simp [lexLt]
    | cons y ys =>
      rcases Nat.lt_trichotomy x y with h | h | h
      · left; rw [lexLt_cons_cons]; exact Or.inl h
      · subst h
        rcases ih ys with h2 | h2 | h2
        · left; rw [lexLt_cons_cons]; exact Or.inr ⟨rfl, h2⟩
        · right; left; rw [h2]
        · right; right; rw [lexLt_cons_cons]; exact Or.inr ⟨rfl, h2⟩
      · right; right; rw [lexLt_cons_cons]; exact Or.inl h

theorem lexLt_asymm {a b : List Nat} (h : lexLt a b = true) : lexLt b a = false := by
  induction a generalizing b with
  | nil =>
    cases b with
    | nil => rfl
    | cons y ys => rfl
  | cons x xs ih =>
    cases b with
    | nil => simp [lexLt] at h
    | cons y ys =>
      rw [lexLt_cons_cons] at h
      rw [Bool.eq_false_iff]
      intro hba
      rw [lexLt_cons_cons] at hba
      rcases h with h | ⟨hxy, h⟩
      · rcases hba with hba | ⟨hba, _⟩ <;> omega
      · subst hxy
        rcases hba with hba | ⟨_, hba⟩
        · omega
        · rw [ih h] at hba; cases hba

theorem lexLt_trans {a b c : List Nat} (h1 : lexLt a b = true) (h2 : lexLt b c = true) :
    lexLt a c = true := by
  induction a generalizing b c with
  | nil =>
    cases c with
    | nil => cases b <;> simp [lexLt] at h1 h2
    | cons z zs => rfl
  | cons x xs ih =>
    cases b with
    | nil => simp [lexLt] at h1
    | cons y ys =>
      cases c with
      | nil => simp [lexLt] at h2
      | cons z zs =>
        rw [lexLt_cons_cons] at h1 h2 ⊢
        rcases h1 with h1 | ⟨hxy, h1⟩
        · rcases h2 with h2 | ⟨hyz, h2⟩
          · exact Or.inl (by omega)
          · exact Or.inl (by omega)
        · subst hxy
          rcases h2 with h2 | ⟨hyz, h2⟩
          · exact Or.inl h2
          · exact Or.inr ⟨hyz, ih h1 h2⟩

theorem lexLt_of_ne_of_not_lt {a b : List Nat} (hne : a ≠ b) (h : lexLt a b = false) :
    lexLt b a = true := by
  rcases lexLt_trichotomy a b with h1 | h1 | h1
  · rw [h1] at h; cases h
  · exact absurd h1 hne
  · exact h1

theorem not_lexLt_of_isPrefixOf {p k : List Nat} (h : p <+: k) : lexLt k p = false := by
  induction p generalizing k with
  | nil => cases k <;> rfl
  | cons x xs ih =>
    rcases h with ⟨t, ht⟩
    subst ht
    rw [List.cons_append, lexLt_cons_eq, if_neg (Nat.lt_irrefl x), if_neg (Nat.lt_irrefl x)]
    exact ih ⟨t, rfl⟩


theorem bytesValid_head {b : Nat} {l : List Nat} (h : bytesValid (b :: l) = true) :
    b < 256 := by
  rw [bytesValid, List.all_eq_true] at h
  have := h b (List.mem_cons_self b l)
  simpa using this

theorem bytesValid_tail {b : Nat} {l : List Nat} (h : bytesValid (b :: l) = true) :
    bytesValid l = true := by
  rw [bytesValid, List.all_eq_true] at h ⊢
  exact fun x hx => h x (List.mem_cons_of_mem _ hx)

theorem bytesValid_mem {l : List Nat} {x : Nat} (h : bytesValid l = true) (hx : x ∈ l) :
    x < 256 := by
  rw [bytesValid, List.all_eq_true] at h
  have := h x hx
  simpa using this

theorem carryIncAux_eq_none_iff (p : List Nat) :
    carryIncAux p = none ↔ ∀ b ∈ p, 255 ≤ b := by
  induction p with
  | nil => simp [carryIncAux]
  | cons b rest ih =>
    unfold carryIncAux
    cases h : carryIncAux rest with
    | some u =>
      simp only
      constructor
      · intro hc; cases hc
      · intro hall
        have hnone : carryIncAux rest = none :=
          ih.mpr (fun x hx => hall x (List.mem_cons_of_mem _ hx))
        rw [h] at hnone; cases hnone
    | none =>
      simp only
      by_cases hb : b < 255
      · simp only [if_pos hb]
        constructor
        · intro hc; cases hc
        · intro hall
          have := hall b (List.mem_cons_self b rest)
          omega
      · simp only [if_neg hb]
        constructor
        · intro _ x hx
          rcases List.mem_cons.mp hx with hx | hx
          · omega
          · exact (ih.mp h) x hx
        · intro _; trivial

theorem le_or_isPrefixOf_of_all_max {p k : List Nat} (hp : ∀ b ∈ p, b = 255)
    (hk : bytesValid k = true) : lexLt p k = false ∨ p <+: k := by
  induction p generalizing k with
  | nil => exact Or.inr List.nil_prefix
  | cons b p' ih =>
    have hb : b = 255 := hp b (List.mem_cons_self b p')
    subst hb
    cases k with
    | nil => exact Or.inl rfl
    | cons c k' =>
      have hc : c < 256 := bytesValid_head hk
      rcases Nat.lt_trichotomy c 255 with hcb | hcb | hcb
      · left
        rw [Bool.eq_false_iff]
        intro hlt
        rw [lexLt_cons_cons] at hlt
        rcases hlt with hlt | ⟨hlt, _⟩ <;> omega
      · subst hcb
        rcases ih (fun x hx => hp x (List.mem_cons_of_mem _ hx)) (bytesValid_tail hk) with
          h | h
        · left
          rw [Bool.eq_false_iff]
          intro hlt
          rw [lexLt_cons_cons] at hlt
          rcases hlt with hlt | ⟨_, hlt⟩
          · omega
          · rw [h] at hlt; cases hlt
        · right
          exact List.cons_prefix_cons.mpr ⟨rfl, h⟩
      · omega

/-- Membership test against the computed carry-increment upper bound. -/
def belowUpper (p k : List Nat) : Bool :=
  match carryIncAux p with
  | some u => lexLt k u
  | none => true

/-- Key fact about the carry-increment upper bound: a byte-valid key lies
strictly below the computed bound (or the bound is absent) exactly when the
key is at most the prefix or extends the prefix. -/
theorem belowUpper_iff {p k : List Nat} (hp : bytesValid p = true) (hk : bytesValid k = true) :
    belowUpper p k = true ↔ (lexLt p k = false ∨ p <+: k) := by
  induction p generalizing k with
  | nil =>
    rw [belowUpper]
    simp only [carryIncAux]
    exact ⟨fun _ => Or.inr List.nil_prefix, fun _ => trivial⟩
  | cons b p' ih =>
    have hb : b < 256 := bytesValid_head hp
    have hp' : bytesValid p' = true := bytesValid_tail hp
    cases hci : carryIncAux p' with
    | some u' =>
      have hstep : belowUpper (b :: p') k = lexLt k (b :: u') := by
        rw [belowUpper]
        unfold carryIncAux
        rw [hci]
      rw [hstep]
      cases k with
      | nil =>
        constructor
        · intro _; exact Or.inl rfl
        · intro _; rfl
      | cons a k' =>
        have ha : a < 256 := bytesValid_head hk
        have hk' : bytesValid k' = true := bytesValid_tail hk
        rcases Nat.lt_trichotomy a b with hab | hab | hab
        · constructor
          · intro _
            left
            rw [Bool.eq_false_iff]
            intro hlt
            rw [lexLt_cons_cons] at hlt
            rcases hlt with hlt | ⟨hlt, _⟩ <;> omega
          · intro _
            rw [lexLt_cons_cons]
            exact Or.inl hab
        · subst hab
          have step2 : lexLt (a :: k') (a :: u') = lexLt k' u' := by
            rw [lexLt_cons_eq, if_neg (Nat.lt_irrefl a), if_neg (Nat.lt_irrefl a)]
          rw [step2]
          have ihk := ih (k := k') hp' hk'
          rw [belowUpper, hci] at ihk
          simp only at ihk
          rw [ihk]
          constructor
          · rintro (h | h)
            · left
              rw [Bool.eq_false_iff]
              intro hlt
              rw [lexLt_cons_cons] at hlt
              rcases hlt with hlt | ⟨_, hlt⟩
              · omega
              · rw [h] at hlt; cases hlt
            · right
              exact List.cons_prefix_cons.mpr ⟨rfl, h⟩
          · rintro (h | h)
            · left
              rw [Bool.eq_false_iff] at h ⊢
              intro hlt
              exact h (by rw [lexLt_cons_cons]; exact Or.inr ⟨rfl, hlt⟩)
            · right
              exact (List.cons_prefix_cons.mp h).2
        · constructor
          · intro hlt
            rw [lexLt_cons_cons] at hlt
            rcases hlt with hlt | ⟨hlt, _⟩ <;> omega
          · rintro (h | h)
            · rw [Bool.eq_false_iff] at h
              exact absurd (by rw [lexLt_cons_cons]; exact Or.inl hab) h
            · have := (List.cons_prefix_cons.mp h).1
              omega
    | none =>
      have hall : ∀ x ∈ p', x = 255 := by
        intro x hx
        have h255 := (carryIncAux_eq_none_iff p').mp hci x hx
        have := bytesValid_mem hp' hx
        omega
      by_cases hblt : b < 255
      · have hstep : belowUpper (b :: p') k = lexLt k [b + 1] := by
          rw [belowUpper]
          unfold carryIncAux
          rw [hci]
          simp only [if_pos hblt]
        rw [hstep]
        cases k with
        | nil =>
          constructor
          · intro _; exact Or.inl rfl
          · intro _; rfl
        | cons a k' =>
          have ha : a < 256 := bytesValid_head hk
          have hk' : bytesValid k' = true := bytesValid_tail hk
          constructor
          · intro hlt
            rw [lexLt_cons_cons] at hlt
            rcases hlt with hlt | ⟨hlt, hlt'⟩
            · rcases Nat.lt_trichotomy a b with hab | hab | hab
              · left
                rw [Bool.eq_false_iff]
                intro hlt2
                rw [lexLt_cons_cons] at hlt2
                rcases hlt2 with hlt2 | ⟨hlt2, _⟩ <;> omega
              · subst hab
                rcases le_or_isPrefixOf_of_all_max hall hk' with h | h
                · left
                  rw [Bool.eq_false_iff]
                  intro hlt2
                  rw [lexLt_cons_cons] at hlt2
                  rcases hlt2 with hlt2 | ⟨_, hlt2⟩
                  · omega
                  · rw [h] at hlt2; cases hlt2
                · right
                  exact List.cons_prefix_cons.mpr ⟨rfl, h⟩
              · omega
            · rw [lexLt_nil_right] at hlt'
              cases hlt'
          · rintro (h | h)
            · rw [lexLt_cons_cons]
              left
              rw [Bool.eq_false_iff] at h
              rcases Nat.lt_trichotomy a b with hab | hab | hab
              · omega
              · omega
              · exact absurd (by rw [lexLt_cons_cons]; exact Or.inl hab) h
            · rw [lexLt_cons_cons]
              have := (List.cons_prefix_cons.mp h).1
              omega
      · have hstep : belowUpper (b :: p') k = true := by
          rw [belowUpper]
          unfold carryIncAux
          rw [hci]
          simp only [if_neg hblt]
        rw [hstep]
        have hb255 : b = 255 := by omega
        constructor
        · intro _
          refine le_or_isPrefixOf_of_all_max ?_ hk
          intro x hx
          rcases List.mem_cons.mp hx with hx | hx
          · omega
          · exact hall x hx
        · intro _; rfl


theorem endAdmits_storeRangeEnd_included (p k : List Nat) :
    endAdmits (storeRangeEnd (.included p)) k = belowUpper p k := by
  rw [storeRangeEnd, belowUpper, ← upperBound_eq_carryIncAux]
  cases upperBound p <;> rfl

theorem prefix_window {p k : List Nat} (hp : bytesValid p = true) (hk : bytesValid k = true) :
    ((!lexLt k p) && belowUpper p k) = true ↔ p <+: k := by
  rw [Bool.and_eq_true, Bool.not_eq_true']
  rw [belowUpper_iff hp hk]
  constructor
  · rintro ⟨hkp, h | h⟩
    · rcases lexLt_trichotomy p k with h2 | h2 | h2
      · rw [h2] at h; cases h
      · subst h2; exact List.prefix_refl p
      · rw [h2] at hkp; cases hkp
    · exact h
  · intro h
    exact ⟨not_lexLt_of_isPrefixOf h, Or.inr h⟩

theorem storePrefixScan_eq_filter (s : ByteStore) (p : List Nat) :
    storePrefixScan s p = s.filter (fun e => (!lexLt e.1 p) && belowUpper p e.1) := by
  rw [storePrefixScan]
  rw [show upperBound p = carryIncAux p from upperBound_eq_carryIncAux p]
  cases h : carryIncAux p with
  | some u =>
    rw [btreeRange]
    apply List.filter_congr
    intro e _
    rw [startAdmits, endAdmits, belowUpper, h]
  | none =>
    rw [btreeRange]
    apply List.filter_congr
    intro e _
    rw [startAdmits, endAdmits, belowUpper, h, Bool.and_true]

/-- Boundary correctness of `scan_prefix` in `src/store.rs`: a byte-valid
stored entry is yielded exactly when the encoded prefix is a byte-prefix of
its key. -/
theorem storePrefixScan_mem {s : ByteStore} {p k v : List Nat}
    (hp : bytesValid p = true) (hk : bytesValid k = true) :
    (k, v) ∈ storePrefixScan s p ↔ ((k, v) ∈ s ∧ p <+: k) := by
  rw [storePrefixScan_eq_filter, List.mem_filter]
  exact and_congr_right (fun _ => prefix_window hp hk)

/-- C1: the claim fixes `scan_prefix` to scan the half-open range `[P, U)`
with the carry-incremented bound `U` excluded, so that no stored key lacking
byte-prefix `P` is yielded. The `ReadStore` implementation in `src/store.rs`
does exactly that, but `Record::scan_prefix` in `src/lib.rs` passes the same
computed bound as `Bound::Included`: with prefix bytes `[1]` (so `U = [2]`)
and a store containing the keys `[1]`, `[1,5]` and `[2]`, the `src/lib.rs`
scan also yields the entry with key `[2] = U`, which does not have `[1]` as a
prefix. -/
theorem scanPrefix_includedEnd_bug :
    recordPrefixScan [([1], [9]), ([1, 5], [9]), ([2], [9])] [1] =
        [([1], [9]), ([1, 5], [9]), ([2], [9])] ∧
      storePrefixScan [([1], [9]), ([1, 5], [9]), ([2], [9])] [1] =
        [([1], [9]), ([1, 5], [9])] ∧
      upperBound [1] = some [2] ∧
      List.isPrefixOf [1] [2] = false := by
  refine ⟨?_, ?_, ?_, ?_⟩ <;> rfl

/-- C2 counterexample: the claim states that `scan_range` translates an
inclusive typed end bound into the encoded bound itself, included, with no
carry-increment applied; but the `ReadStore` implementation in
`src/store.rs` translates `Included [1]` into the carry-incremented
exclusive byte bound `Excluded [2]`. -/
theorem scanRange_includedEnd_not_exactMatch :
    storeRangeEnd (.included [1]) = .excluded [2] ∧
      storeRangeEnd (.included [1]) ≠ .included [1] := by
  exact ⟨rfl, by decide⟩

/-- C2 amended: in `src/store.rs` an inclusive typed end bound is translated
by the carry-increment transform into an exclusive byte bound (or an
unbounded one), which admits exactly the keys at most the encoded bound
together with every key extending it; only the stale
`Record::scan_range` in `src/lib.rs` translates an included end bound by
exact-match inclusion of the encoded bytes. -/
theorem scanRange_includedEnd_carryInc {e k : List Nat}
    (he : bytesValid e = true) (hk : bytesValid k = true) :
    (endAdmits (storeRangeEnd (.included e)) k = true ↔
      (lexLt e k = false ∨ e <+: k)) ∧
    recordRangeEnd (.included e) = .included e := by
  constructor
  · rw [endAdmits_storeRangeEnd_included]
    exact belowUpper_iff he hk
  · rfl

/-- Witness for the amended C2 statement at `e = [1]`, `k = [1,5]`. -/
theorem scanRange_includedEnd_carryInc_witness :
    bytesValid [1] = true ∧ bytesValid [1, 5] = true ∧
      ((endAdmits (storeRangeEnd (.included [1])) [1, 5] = true ↔
        (lexLt [1] [1, 5] = false ∨ [1] <+: [1, 5])) ∧
      recordRangeEnd (.included [1]) = .included [1]) :=
  ⟨by decide, by decide, scanRange_includedEnd_carryInc (by decide) (by decide)⟩

/-- C9: when every byte of an inclusive end bound is maximal (or the bound
has no bytes), the carry-increment loop in `scan_range` of `src/store.rs`
falls through and the byte range passed to the store is unbounded above:
every stored entry admitted by the start bound is yielded, in particular
entries whose keys are byte-lexicographically greater than the end bound's
encoding. -/
theorem scanRange_allMaxIncludedEnd_unbounded {e : List Nat}
    (he : ∀ b ∈ e, b = 255) :
    storeRangeEnd (.included e) = .unbounded ∧
      (∀ (s : ByteStore) (lo : ByteBound) (k v : List Nat),
        ((k, v) ∈ storeRangeScan s lo (.included e) ↔
          ((k, v) ∈ s ∧ startAdmits lo k = true))) ∧
      (∀ (s : ByteStore) (lo : ByteBound) (k v : List Nat),
        (k, v) ∈ s → startAdmits lo k = true → lexLt e k = true →
          (k, v) ∈ storeRangeScan s lo (.included e)) := by
  have hnone : upperBound e = none := by
    rw [upperBound_eq_carryIncAux, carryIncAux_eq_none_iff]
    intro b hb
    rw [he b hb]
  have hend : storeRangeEnd (.included e) = .unbounded := by
    rw [storeRangeEnd, hnone]
  refine ⟨hend, ?_, ?_⟩
  · intro s lo k v
    rw [storeRangeScan, hend, btreeRange, List.mem_filter]
    apply and_congr_right
    intro _
    rw [endAdmits, Bool.and_true]
  · intro s lo k v hmem hlo _
    rw [storeRangeScan, hend, btreeRange, List.mem_filter]
    exact ⟨hmem, by rw [hlo, endAdmits, Bool.and_true]⟩

/-- Witness for C9 at the all-maximal bound `[255, 255]`, with a stored key
`[255, 255, 7]` that extends (and so exceeds) the bound. -/
theorem scanRange_allMaxIncludedEnd_unbounded_witness :
    (∀ b ∈ ([255, 255] : List Nat), b = 255) ∧
      storeRangeEnd (.included [255, 255]) = .unbounded ∧
      ([255, 255, 7], [1]) ∈
        storeRangeScan [(([255, 255, 7] : List Nat), ([1] : List Nat))]
          .unbounded (.included [255, 255]) := by
  refine ⟨by decide, ?_, ?_⟩
  · exact (scanRange_allMaxIncludedEnd_unbounded (by decide)).1
  · exact (scanRange_allMaxIncludedEnd_unbounded (by decide)).2.2
      [(([255, 255, 7] : List Nat), ([1] : List Nat))] .unbounded [255, 255, 7] [1]
      (by simp) (by decide) (by decide)

theorem beBytes_length (n x : Nat) : (beBytes n x).length = n := by
  induction n generalizing x with
  | zero => rfl
  | succ n ih => simp [beBytes, ih]

theorem beBytes_mem_lt {n x b : Nat} (hb : b ∈ beBytes n x) : b < 256 := by
  induction n generalizing x with
  | zero => cases hb
  | succ n ih =>
    rw [beBytes] at hb
    rcases List.mem_cons.mp hb with hb | hb
    · subst hb
      exact Nat.mod_lt _ (by omega)
    · exact ih hb

theorem bytesValid_beBytes (n x : Nat) : bytesValid (beBytes n x) = true := by
  rw [bytesValid, List.all_eq_true]
  intro b hb
  simpa using beBytes_mem_lt hb

theorem beBytes_congr {n x y : Nat} (h : x % 256 ^ n = y % 256 ^ n) :
    beBytes n x = beBytes n y := by
  induction n generalizing x y with
  | zero => rfl
  | succ n ih =>
    have hpow : (256 : Nat) ^ (n + 1) = 256 ^ n * 256 := by ring
    have hhead : x / 256 ^ n % 256 = y / 256 ^ n % 256 := by
      have hx := Nat.mod_mul_right_div_self x (256 ^ n) 256
      have hy := Nat.mod_mul_right_div_self y (256 ^ n) 256
      rw [← hpow] at hx hy
      rw [← hx, ← hy, h]
    have hdvd : (256 : Nat) ^ n ∣ 256 ^ (n + 1) := ⟨256, hpow⟩
    have htail : x % 256 ^ n = y % 256 ^ n := by
      have hx := Nat.mod_mod_of_dvd x hdvd
      have hy := Nat.mod_mod_of_dvd y hdvd
      rw [← hx, ← hy, h]
    rw [beBytes, beBytes, hhead, ih htail]

theorem beVal_foldl_acc (l : List Nat) (acc : Nat) :
    l.foldl (fun a b => a * 256 + b) acc = acc * 256 ^ l.length + beVal l := by
  induction l generalizing acc with
  | nil => simp [beVal]
  | cons b rest ih =>
    have hb : beVal (b :: rest) = b * 256 ^ rest.length + beVal rest := by
      have hstep : beVal (b :: rest) =
          List.foldl (fun a c => a * 256 + c) (0 * 256 + b) rest := rfl
      rw [hstep, ih]
      ring
    rw [List.foldl_cons, ih, hb, List.length_cons]
    ring

theorem beVal_beBytes (n x : Nat) : beVal (beBytes n x) = x % 256 ^ n := by
  induction n generalizing x with
  | zero => simp [beBytes, beVal, Nat.mod_one]
  | succ n ih =>
    have hstep : beVal (beBytes (n + 1) x) =
        List.foldl (fun a c => a * 256 + c) (0 * 256 + (x / 256 ^ n % 256)) (beBytes n x) := rfl
    rw [hstep, beVal_foldl_acc, beBytes_length, ih]
    have hpow : (256 : Nat) ^ (n + 1) = 256 ^ n * 256 := by ring
    rw [hpow, Nat.mod_mul]
    ring

theorem beVal_beBytes_of_lt {n x : Nat} (hx : x < 256 ^ n) : beVal (beBytes n x) = x := by
  rw [beVal_beBytes, Nat.mod_eq_of_lt hx]

theorem pow2_eq_pow256 (n : Nat) : (2 : Nat) ^ (8 * n) = 256 ^ n := by
  rw [Nat.pow_mul]

theorem div_mod_lt_iff {A : Nat} (x y : Nat) (hA : 0 < A) :
    x < y ↔ (x / A < y / A ∨ (x / A = y / A ∧ x % A < y % A)) := by
  constructor
  · intro h
    by_cases hd : x / A < y / A
    · exact Or.inl hd
    · right
      have h1 : x / A ≤ y / A := Nat.div_le_div_right h.le
      have heq : x / A = y / A := by omega
      refine ⟨heq, ?_⟩
      have hx := Nat.div_add_mod x A
      have hy := Nat.div_add_mod y A
      rw [heq] at hx
      omega
  · intro h
    rcases h with h | ⟨heq, hm⟩
    · have hx := Nat.div_add_mod x A
      have hxm : x % A < A := Nat.mod_lt _ hA
      calc x < A * (x / A) + A := by omega
        _ = A * (x / A + 1) := by ring
        _ ≤ A * (y / A) := Nat.mul_le_mul_left A h
        _ ≤ y := Nat.mul_div_le y A
    · have hx := Nat.div_add_mod x A
      have hy := Nat.div_add_mod y A
      rw [heq] at hx
      omega

theorem lexLt_beBytes_iff {n x y : Nat} (hx : x < 256 ^ n) (hy : y < 256 ^ n) :
    lexLt (beBytes n x) (beBytes n y) = true ↔ x < y := by
  induction n generalizing x y with
  | zero =>
    simp only [Nat.pow_zero, Nat.lt_one_iff] at hx hy
    subst hx; subst hy
    simp [beBytes, lexLt]
  | succ n ih =>
    have hpow : (256 : Nat) ^ (n + 1) = 256 ^ n * 256 := by ring
    have hxd : x / 256 ^ n < 256 := by
      rw [Nat.div_lt_iff_lt_mul (Nat.pos_pow_of_pos n (by omega))]
      rw [hpow] at hx
      omega
    have hyd : y / 256 ^ n < 256 := by
      rw [Nat.div_lt_iff_lt_mul (Nat.pos_pow_of_pos n (by omega))]
      rw [hpow] at hy
      omega
    rw [beBytes, beBytes, Nat.mod_eq_of_lt hxd, Nat.mod_eq_of_lt hyd, lexLt_cons_cons]
    have hpos : 0 < (256 : Nat) ^ n := Nat.pos_pow_of_pos n (by omega)
    have htailx : beBytes n x = beBytes n (x % 256 ^ n) :=
      beBytes_congr (Nat.mod_mod_of_dvd x dvd_rfl).symm
    have htaily : beBytes n y = beBytes n (y % 256 ^ n) :=
      beBytes_congr (Nat.mod_mod_of_dvd y dvd_rfl).symm
    rw [htailx, htaily, ih (Nat.mod_lt _ hpos) (Nat.mod_lt _ hpos)]
    exact (div_mod_lt_iff x y hpos).symm

theorem xor128_eq : ∀ b, b < 256 → b ^^^ 128 = if b < 128 then b + 128 else b - 128 := by
  decide

theorem xor255_eq : ∀ b, b < 256 → b ^^^ 255 = 255 - b := by
  decide

theorem and128_eq : ∀ b, b < 256 → (b &&& 128 = 0 ↔ b < 128) := by
  decide

theorem half_pow {n : Nat} (hn : 0 < n) : (2 : Nat) ^ (8 * n - 1) = 128 * 256 ^ (n - 1) := by
  obtain ⟨k, rfl⟩ : ∃ k, n = k + 1 := ⟨n - 1, by omega⟩
  have h1 : 8 * (k + 1) - 1 = 8 * k + 7 := by omega
  rw [h1, pow_add, pow2_eq_pow256]
  norm_num
  ring

theorem double_pow {n : Nat} (hn : 0 < n) : (2 : Nat) ^ (8 * n) = 2 * 2 ^ (8 * n - 1) := by
  have h1 : 8 * n = 8 * n - 1 + 1 := by omega
  conv_lhs => rw [h1]
  rw [pow_succ]
  ring

theorem flipHead_beBytes {k m : Nat} (hm : m < 256 ^ (k + 1)) :
    flipHead (beBytes (k + 1) m) =
      beBytes (k + 1) (if m < 128 * 256 ^ k then m + 128 * 256 ^ k else m - 128 * 256 ^ k) := by
  have hpos : 0 < (256 : Nat) ^ k := Nat.pos_pow_of_pos k (by omega)
  have hpow : (256 : Nat) ^ (k + 1) = 256 ^ k * 256 := by ring
  have hd_lt : m / 256 ^ k < 256 := by
    rw [Nat.div_lt_iff_lt_mul hpos, mul_comm]
    rw [hpow] at hm
    exact hm
  have hdiv_iff : m < 128 * 256 ^ k ↔ m / 256 ^ k < 128 := by
    rw [Nat.div_lt_iff_lt_mul hpos, mul_comm]
  have lhs_eq : flipHead (beBytes (k + 1) m) = (m / 256 ^ k ^^^ 128) :: beBytes k m := by
    show ((m / 256 ^ k % 256) ^^^ 128) :: beBytes k m = _
    rw [Nat.mod_eq_of_lt hd_lt]
  by_cases hlt : m < 128 * 256 ^ k
  · have hd128 : m / 256 ^ k < 128 := hdiv_iff.mp hlt
    rw [if_pos hlt, lhs_eq, xor128_eq _ hd_lt, if_pos hd128]
    have hhead : (m + 128 * 256 ^ k) / 256 ^ k = m / 256 ^ k + 128 := by
      rw [mul_comm (128 : Nat) (256 ^ k), Nat.add_mul_div_left m 128 hpos]
    have htail : beBytes k (m + 128 * 256 ^ k) = beBytes k m := by
      apply beBytes_congr
      rw [mul_comm (128 : Nat) (256 ^ k), Nat.add_mul_mod_self_left]
    show _ = ((m + 128 * 256 ^ k) / 256 ^ k % 256) :: beBytes k (m + 128 * 256 ^ k)
    rw [hhead, htail, Nat.mod_eq_of_lt (by omega)]
  · have hd128 : ¬m / 256 ^ k < 128 := by
      rw [← hdiv_iff]
      exact hlt
    rw [if_neg hlt, lhs_eq, xor128_eq _ hd_lt, if_neg hd128]
    have hge : 128 * 256 ^ k ≤ m := by omega
    have hmm : m = (m - 128 * 256 ^ k) + 128 * 256 ^ k := by omega
    have hhead : (m - 128 * 256 ^ k) / 256 ^ k = m / 256 ^ k - 128 := by
      have hstep : ((m - 128 * 256 ^ k) + 128 * 256 ^ k) / 256 ^ k =
          (m - 128 * 256 ^ k) / 256 ^ k + 128 := by
        rw [mul_comm (128 : Nat) (256 ^ k), Nat.add_mul_div_left _ 128 hpos]
      rw [← hmm] at hstep
      omega
    have htail : beBytes k (m - 128 * 256 ^ k) = beBytes k m := by
      apply beBytes_congr
      conv_rhs => rw [hmm]
      rw [mul_comm (128 : Nat) (256 ^ k), Nat.add_mul_mod_self_left]
    show _ = ((m - 128 * 256 ^ k) / 256 ^ k % 256) :: beBytes k (m - 128 * 256 ^ k)
    rw [hhead, htail, Nat.mod_eq_of_lt (by omega)]

theorem complement_beBytes {n p : Nat} (hp : p < 256 ^ n) :
    complement (beBytes n p) = beBytes n (256 ^ n - 1 - p) := by
  induction n generalizing p with
  | zero => rfl
  | succ k ih =>
    have hpos : 0 < (256 : Nat) ^ k := Nat.pos_pow_of_pos k (by omega)
    have hpow : (256 : Nat) ^ (k + 1) = 256 ^ k * 256 := by ring
    have hqr : 256 ^ k * (p / 256 ^ k) + p % 256 ^ k = p := Nat.div_add_mod p (256 ^ k)
    have hq_lt : p / 256 ^ k < 256 := by
      rw [Nat.div_lt_iff_lt_mul hpos, mul_comm]
      rw [hpow] at hp
      exact hp
    have hr_lt : p % 256 ^ k < 256 ^ k := Nat.mod_lt _ hpos
    have hsplit : 256 ^ k * (255 - p / 256 ^ k) + 256 ^ k * (p / 256 ^ k) = 256 ^ k * 255 := by
      rw [← Nat.mul_add]
      congr 1
      omega
    have hval : 256 ^ (k + 1) - 1 - p =
        256 ^ k * (255 - p / 256 ^ k) + (256 ^ k - 1 - p % 256 ^ k) := by
      rw [hpow]
      omega
    have hmap : complement (beBytes (k + 1) p) =
        (255 - p / 256 ^ k) :: complement (beBytes k p) := by
      show ((p / 256 ^ k % 256) ^^^ 255) :: complement (beBytes k p) = _
      rw [Nat.mod_eq_of_lt hq_lt, xor255_eq _ hq_lt]
    have hbk : beBytes k p = beBytes k (p % 256 ^ k) :=
      beBytes_congr (Nat.mod_mod_of_dvd p dvd_rfl).symm
    rw [hmap, hbk, ih hr_lt, hval]
    show _ = ((256 ^ k * (255 - p / 256 ^ k) + (256 ^ k - 1 - p % 256 ^ k)) / 256 ^ k % 256) ::
        beBytes k (256 ^ k * (255 - p / 256 ^ k) + (256 ^ k - 1 - p % 256 ^ k))
    have hhead : (256 ^ k * (255 - p / 256 ^ k) + (256 ^ k - 1 - p % 256 ^ k)) / 256 ^ k =
        255 - p / 256 ^ k := by
      rw [Nat.mul_add_div hpos,
        Nat.div_eq_of_lt (show 256 ^ k - 1 - p % 256 ^ k < 256 ^ k by omega)]
      omega
    have htail : beBytes k (256 ^ k - 1 - p % 256 ^ k) =
        beBytes k (256 ^ k * (255 - p / 256 ^ k) + (256 ^ k - 1 - p % 256 ^ k)) := by
      apply beBytes_congr
      rw [Nat.mul_add_mod]
    rw [hhead,
      Nat.mod_eq_of_lt (Nat.lt_succ_of_le (Nat.sub_le 255 (p / 256 ^ k))), htail]

theorem emod_eq_add_of_neg {v W : Int} (h : -W ≤ v) (h2 : v < 0) : v % W = v + W := by
  have h3 : (v + W) % W = v % W := by
    have h4 := Int.add_mul_emod_self_left v W 1
    rw [mul_one] at h4
    exact h4
  rw [← h3, Int.emod_eq_of_lt (by omega) (by omega)]

theorem iintEncode_eq {n : Nat} (hn : 0 < n) {v : Int}
    (h1 : -((2 : Int) ^ (8 * n - 1)) ≤ v) (h2 : v < (2 : Int) ^ (8 * n - 1)) :
    iintEncode n v = beBytes n ((v + (2 : Int) ^ (8 * n - 1)).toNat) := by
  obtain ⟨k, rfl⟩ : ∃ k, n = k + 1 := ⟨n - 1, by omega⟩
  have hH : (2 : Nat) ^ (8 * (k + 1) - 1) = 128 * 256 ^ k := half_pow (by omega)
  have hW2 : (2 : Nat) ^ (8 * (k + 1)) = 2 * 2 ^ (8 * (k + 1) - 1) := double_pow (by omega)
  have hWpow : (2 : Nat) ^ (8 * (k + 1)) = 256 ^ (k + 1) := pow2_eq_pow256 (k + 1)
  have hHc : ((2 : Int) ^ (8 * (k + 1) - 1)) = ((2 ^ (8 * (k + 1) - 1) : Nat) : Int) := by
    push_cast
    ring
  have hWc : ((2 : Int) ^ (8 * (k + 1))) = ((2 ^ (8 * (k + 1)) : Nat) : Int) := by
    push_cast
    ring
  rw [iintEncode, twosComplement]
  by_cases hv : 0 ≤ v
  · have hmod : v % (2 : Int) ^ (8 * (k + 1)) = v := by
      apply Int.emod_eq_of_lt hv
      rw [hWc]
      rw [hHc] at h2
      omega
    rw [hmod]
    have hmlt : v.toNat < 256 ^ (k + 1) := by
      rw [← hWpow]
      rw [hHc] at h2
      omega
    rw [flipHead_beBytes hmlt]
    have hcond : v.toNat < 128 * 256 ^ k := by
      rw [← hH]
      rw [hHc] at h2
      omega
    rw [if_pos hcond]
    congr 1
    rw [← hH]
    rw [hHc] at h2 h1 ⊢
    omega
  · have hmod : v % (2 : Int) ^ (8 * (k + 1)) = v + 2 ^ (8 * (k + 1)) := by
      apply emod_eq_add_of_neg
      · rw [hWc]
        rw [hHc] at h1
        have hcast : ((2 ^ (8 * (k + 1)) : Nat) : Int) = 2 * ((2 ^ (8 * (k + 1) - 1) : Nat) : Int) := by
          rw [hW2]
          push_cast
          ring
        omega
      · omega
    rw [hmod]
    have hge : 128 * 256 ^ k ≤ (v + 2 ^ (8 * (k + 1))).toNat := by
      rw [← hH]
      rw [hHc] at h1
      rw [hWc, hW2]
      push_cast
      omega
    have hmlt : (v + 2 ^ (8 * (k + 1))).toNat < 256 ^ (k + 1) := by
      rw [← hWpow, hWc]
      omega
    rw [flipHead_beBytes hmlt, if_neg (by omega)]
    congr 1
    rw [← hH]
    rw [hHc] at h1 h2 ⊢
    rw [hWc, hW2]
    push_cast
    omega

theorem floatEncode_eq {n p : Nat} (hn : 0 < n) (hp : p < 2 ^ (8 * n)) :
    floatEncode n p = beBytes n (floatEncVal n p) := by
  obtain ⟨k, rfl⟩ : ∃ k, n = k + 1 := ⟨n - 1, by omega⟩
  have hH : (2 : Nat) ^ (8 * (k + 1) - 1) = 128 * 256 ^ k := half_pow (by omega)
  have hWpow : (2 : Nat) ^ (8 * (k + 1)) = 256 ^ (k + 1) := pow2_eq_pow256 (k + 1)
  have hpos : 0 < (256 : Nat) ^ k := Nat.pos_pow_of_pos k (by omega)
  have hp' : p < 256 ^ (k + 1) := by
    rw [← hWpow]
    exact hp
  have hd_lt : p / 256 ^ k < 256 := by
    rw [Nat.div_lt_iff_lt_mul hpos, mul_comm]
    rw [show (256 : Nat) ^ (k + 1) = 256 ^ k * 256 from by ring] at hp'
    exact hp'
  have hdiv_iff : p < 128 * 256 ^ k ↔ p / 256 ^ k < 128 := by
    rw [Nat.div_lt_iff_lt_mul hpos, mul_comm]
  have hhd : (beBytes (k + 1) p).headD 0 = p / 256 ^ k := by
    show p / 256 ^ k % 256 = p / 256 ^ k
    exact Nat.mod_eq_of_lt hd_lt
  rw [floatEncode]
  simp only [hhd]
  by_cases hlt : p < 2 ^ (8 * (k + 1) - 1)
  · have hd128 : p / 256 ^ k < 128 := by
      rw [← hdiv_iff, ← hH]
      exact hlt
    have hand : (p / 256 ^ k &&& 128 == 0) = true := by
      rw [beq_iff_eq]
      exact (and128_eq _ hd_lt).mpr hd128
    rw [if_pos hand, flipHead_beBytes hp', floatEncVal, if_pos hlt,
      if_pos (by rw [← hH]; exact hlt), hH]
  · have hd128 : ¬p / 256 ^ k < 128 := by
      rw [← hdiv_iff, ← hH]
      exact hlt
    have hand : ¬(p / 256 ^ k &&& 128 == 0) = true := by
      rw [beq_iff_eq]
      intro hc
      exact hd128 ((and128_eq _ hd_lt).mp hc)
    rw [if_neg hand, complement_beBytes hp', floatEncVal, if_neg hlt, hWpow]

theorem floatEncVal_lt {n p : Nat} (hn : 0 < n) (hp : p < 2 ^ (8 * n)) :
    floatEncVal n p < 256 ^ n := by
  have hW2 : (2 : Nat) ^ (8 * n) = 2 * 2 ^ (8 * n - 1) := double_pow hn
  have hWpow : (2 : Nat) ^ (8 * n) = 256 ^ n := pow2_eq_pow256 n
  rw [floatEncVal]
  split_ifs with h
  · omega
  · omega

theorem floatMag_eq {n p : Nat} (hn : 0 < n) (hp : p < 2 ^ (8 * n)) :
    floatMag n p = if 2 ^ (8 * n - 1) ≤ p then p - 2 ^ (8 * n - 1) else p := by
  have hW2 : (2 : Nat) ^ (8 * n) = 2 * 2 ^ (8 * n - 1) := double_pow hn
  have hHpos : 0 < (2 : Nat) ^ (8 * n - 1) := Nat.pos_pow_of_pos _ (by omega)
  rw [floatMag]
  split_ifs with h
  · rw [Nat.mod_eq_sub_mod h, Nat.mod_eq_of_lt (by omega)]
  · rw [Nat.mod_eq_of_lt (by omega)]

theorem float_order {n inf p q : Nat} (hn : 0 < n)
    (hp : p < 2 ^ (8 * n)) (hq : q < 2 ^ (8 * n))
    (hip : floatMag n p ≤ inf) (hiq : floatMag n q ≤ inf)
    (hz : ¬(floatMag n p = 0 ∧ floatMag n q = 0)) :
    lexLt (floatEncode n p) (floatEncode n q) = true ↔ floatLt n inf p q = true := by
  have hW2 : (2 : Nat) ^ (8 * n) = 2 * 2 ^ (8 * n - 1) := double_pow hn
  rw [floatEncode_eq hn hp, floatEncode_eq hn hq,
    lexLt_beBytes_iff (floatEncVal_lt hn hp) (floatEncVal_lt hn hq)]
  have hg1 : decide (inf < floatMag n p) = false := decide_eq_false (Nat.not_lt.mpr hip)
  have hg2 : decide (inf < floatMag n q) = false := decide_eq_false (Nat.not_lt.mpr hiq)
  have hmp := floatMag_eq hn hp
  have hmq := floatMag_eq hn hq
  rw [floatLt]
  simp only [hg1, hg2, Bool.or_self, Bool.false_eq_true, if_false]
  rw [floatEncVal, floatEncVal]
  by_cases hsp : 2 ^ (8 * n - 1) ≤ p
  · have hnegp : floatNeg n p = true := decide_eq_true hsp
    rw [if_pos hsp] at hmp
    by_cases hsq : 2 ^ (8 * n - 1) ≤ q
    · have hnegq : floatNeg n q = true := decide_eq_true hsq
      rw [hnegp, hnegq]
      simp only [if_neg (by omega : ¬p < 2 ^ (8 * n - 1)),
        if_neg (by omega : ¬q < 2 ^ (8 * n - 1))]
      rw [if_pos hsq] at hmq
      simp only [decide_eq_true_eq]
      omega
    · have hnegq : floatNeg n q = false := decide_eq_false hsq
      rw [hnegp, hnegq]
      simp only [if_neg (by omega : ¬p < 2 ^ (8 * n - 1)),
        if_pos (by omega : q < 2 ^ (8 * n - 1))]
      rw [if_neg hsq] at hmq
      constructor
      · intro _
        simp only [Bool.not_eq_true', Bool.and_eq_false_iff, beq_eq_false_iff_ne]
        rcases Decidable.not_and_iff_or_not.mp hz with h | h
        · left; omega
        · right; omega
      · intro _
        omega
  · have hnegp : floatNeg n p = false := decide_eq_false hsp
    rw [if_neg hsp] at hmp
    by_cases hsq : 2 ^ (8 * n - 1) ≤ q
    · have hnegq : floatNeg n q = true := decide_eq_true hsq
      rw [hnegp, hnegq]
      simp only [if_pos (by omega : p < 2 ^ (8 * n - 1)),
        if_neg (by omega : ¬q < 2 ^ (8 * n - 1))]
      constructor
      · intro hc
        omega
      · intro hc
        cases hc
    · have hnegq : floatNeg n q = false := decide_eq_false hsq
      rw [hnegp, hnegq]
      simp only [if_pos (by omega : p < 2 ^ (8 * n - 1)),
        if_pos (by omega : q < 2 ^ (8 * n - 1))]
      rw [if_neg hsq] at hmq
      simp only [decide_eq_true_eq]
      omega

/-- C3 amended: for the fixed-width unsigned and signed integer codecs the
order-preservation equivalence holds for all in-range pairs; for the float
codec it holds for all pairs of non-NaN bit patterns that are not both
zeros. The excluded zero pair is genuine: `-0.0` and `+0.0` compare equal
as floats, yet their encodings are distinct and ordered. `n` is the byte
width of the type and, for floats, `inf` the magnitude of the format's
infinity pattern (a pattern of larger magnitude is a NaN). -/
theorem orderPreservingEncodings (n : Nat) (hn : 0 < n) :
    (∀ x y : Nat, x < 2 ^ (8 * n) → y < 2 ^ (8 * n) →
      (lexLt (uintEncode n x) (uintEncode n y) = true ↔ x < y)) ∧
    (∀ a b : Int, -((2 : Int) ^ (8 * n - 1)) ≤ a → a < (2 : Int) ^ (8 * n - 1) →
      -((2 : Int) ^ (8 * n - 1)) ≤ b → b < (2 : Int) ^ (8 * n - 1) →
      (lexLt (iintEncode n a) (iintEncode n b) = true ↔ a < b)) ∧
    (∀ inf p q : Nat, p < 2 ^ (8 * n) → q < 2 ^ (8 * n) →
      floatMag n p ≤ inf → floatMag n q ≤ inf →
      ¬(floatMag n p = 0 ∧ floatMag n q = 0) →
      (lexLt (floatEncode n p) (floatEncode n q) = true ↔ floatLt n inf p q = true)) := by
  have hWpow : (2 : Nat) ^ (8 * n) = 256 ^ n := pow2_eq_pow256 n
  have hW2 : (2 : Nat) ^ (8 * n) = 2 * 2 ^ (8 * n - 1) := double_pow hn
  have hHc : ((2 : Int) ^ (8 * n - 1)) = ((2 ^ (8 * n - 1) : Nat) : Int) := by
    push_cast
    ring
  have hcast : ((2 ^ (8 * n) : Nat) : Int) = 2 * ((2 ^ (8 * n - 1) : Nat) : Int) := by
    rw [hW2]
    push_cast
    ring
  refine ⟨?_, ?_, ?_⟩
  · intro x y hx hy
    rw [hWpow] at hx hy
    rw [uintEncode, uintEncode]
    exact lexLt_beBytes_iff hx hy
  · intro a b h1 h2 h3 h4
    have bA : (a + (2 : Int) ^ (8 * n - 1)).toNat < 256 ^ n := by
      rw [← hWpow]
      rw [hHc] at h1 h2
      omega
    have bB : (b + (2 : Int) ^ (8 * n - 1)).toNat < 256 ^ n := by
      rw [← hWpow]
      rw [hHc] at h3 h4
      omega
    rw [iintEncode_eq hn h1 h2, iintEncode_eq hn h3 h4, lexLt_beBytes_iff bA bB]
    rw [hHc] at h1 h3
    omega
  · intro inf p q hp hq hip hiq hz
    exact float_order hn hp hq hip hiq hz

/-- C3 counterexample: on the `f64` layout (8 bytes, infinity magnitude
`0x7FF0000000000000`), the pattern of `-0.0` (`0x8000000000000000`) is not
less than the pattern of `+0.0` (`0`) in float order since the two values
are equal, yet its encoding is strictly byte-lexicographically smaller, so
the claimed equivalence fails on this negative/zero pair. -/
theorem orderPreservingEncodings_counterexample :
    ¬((floatLt 8 0x7FF0000000000000 0x8000000000000000 0 = true) ↔
      lexLt (floatEncode 8 0x8000000000000000) (floatEncode 8 0) = true) := by
  decide

/-- Witness for the amended C3 statement at byte width 1. -/
theorem orderPreservingEncodings_witness :
    (lexLt (uintEncode 1 5) (uintEncode 1 6) = true ↔ (5 : Nat) < 6) ∧
    (lexLt (iintEncode 1 (-1)) (iintEncode 1 0) = true ↔ (-1 : Int) < 0) ∧
    (lexLt (floatEncode 1 3) (floatEncode 1 7) = true ↔ floatLt 1 100 3 7 = true) :=
  ⟨(orderPreservingEncodings 1 (by decide)).1 5 6 (by decide) (by decide),
    (orderPreservingEncodings 1 (by decide)).2.1 (-1) 0
      (by decide) (by decide) (by decide) (by decide),
    (orderPreservingEncodings 1 (by decide)).2.2 100 3 7
      (by decide) (by decide) (by decide) (by decide) (by decide)⟩

theorem flipHead_length (l : List Nat) : (flipHead l).length = l.length := by
  cases l <;> rfl

theorem flipHead_flipHead (l : List Nat) : flipHead (flipHead l) = l := by
  cases l with
  | nil => rfl
  | cons b rest =>
    show (b ^^^ 128 ^^^ 128) :: rest = b :: rest
    rw [Nat.xor_assoc, Nat.xor_self, Nat.xor_zero]

theorem uintDecode_encode_append {n v : Nat} (hv : v < 2 ^ (8 * n)) (rest : List Nat) :
    uintDecode n (uintEncode n v ++ rest) = .ok (v, rest) := by
  have hlen : (beBytes n v).length = n := beBytes_length n v
  rw [uintEncode, uintDecode,
    if_neg (by rw [List.length_append, hlen]; omega),
    List.take_left' hlen, List.drop_left' hlen,
    beVal_beBytes_of_lt (by rw [← pow2_eq_pow256]; exact hv)]

theorem asSigned_twosComplement {n : Nat} (hn : 0 < n) {v : Int}
    (h1 : -((2 : Int) ^ (8 * n - 1)) ≤ v) (h2 : v < (2 : Int) ^ (8 * n - 1)) :
    asSigned n (twosComplement n v) = v := by
  have hW2 : (2 : Nat) ^ (8 * n) = 2 * 2 ^ (8 * n - 1) := double_pow hn
  have hHc : ((2 : Int) ^ (8 * n - 1)) = ((2 ^ (8 * n - 1) : Nat) : Int) := by
    push_cast
    ring
  have hWc : ((2 : Int) ^ (8 * n)) = ((2 ^ (8 * n) : Nat) : Int) := by
    push_cast
    ring
  have hcast : ((2 ^ (8 * n) : Nat) : Int) = 2 * ((2 ^ (8 * n - 1) : Nat) : Int) := by
    rw [hW2]
    push_cast
    ring
  rw [twosComplement, asSigned]
  by_cases hv : 0 ≤ v
  · have hmod : v % (2 : Int) ^ (8 * n) = v := by
      apply Int.emod_eq_of_lt hv
      rw [hWc]
      rw [hHc] at h2
      omega
    rw [hmod, if_pos (by rw [hHc] at h2; omega)]
    rw [hHc] at h2
    omega
  · have hmod : v % (2 : Int) ^ (8 * n) = v + 2 ^ (8 * n) := by
      apply emod_eq_add_of_neg
      · rw [hWc]
        rw [hHc] at h1
        omega
      · omega
    rw [hmod, if_neg (by rw [hHc] at h1; rw [hWc] at *; omega)]
    rw [hHc] at h1
    rw [hWc] at *
    omega

theorem iintDecode_encode_append {n : Nat} (hn : 0 < n) {v : Int}
    (h1 : -((2 : Int) ^ (8 * n - 1)) ≤ v) (h2 : v < (2 : Int) ^ (8 * n - 1))
    (rest : List Nat) :
    iintDecode n (iintEncode n v ++ rest) = .ok (v, rest) := by
  have hlen : (flipHead (beBytes n (twosComplement n v))).length = n := by
    rw [flipHead_length, beBytes_length]
  rw [iintEncode, iintDecode,
    if_neg (by rw [List.length_append, hlen]; omega),
    List.take_left' hlen, List.drop_left' hlen, flipHead_flipHead,
    beVal_beBytes]
  have hmlt : twosComplement n v < 256 ^ n := by
    rw [twosComplement, ← pow2_eq_pow256]
    have hWc : ((2 : Int) ^ (8 * n)) = ((2 ^ (8 * n) : Nat) : Int) := by
      push_cast
      ring
    have hWpos : (0 : Int) < (2 : Int) ^ (8 * n) := by positivity
    have := Int.emod_lt_of_pos v hWpos
    have := Int.emod_nonneg v (by omega : ((2 : Int) ^ (8 * n)) ≠ 0)
    rw [hWc] at *
    omega
  rw [Nat.mod_eq_of_lt hmlt, asSigned_twosComplement hn h1 h2]

theorem beBytes_headD {k x : Nat} (hx : x < 256 ^ (k + 1)) :
    (beBytes (k + 1) x).headD 0 = x / 256 ^ k := by
  have hpos : 0 < (256 : Nat) ^ k := Nat.pos_pow_of_pos k (by omega)
  show x / 256 ^ k % 256 = x / 256 ^ k
  apply Nat.mod_eq_of_lt
  rw [Nat.div_lt_iff_lt_mul hpos, mul_comm]
  rw [show (256 : Nat) ^ (k + 1) = 256 ^ k * 256 from by ring] at hx
  exact hx

theorem and128_eq_128 : ∀ b, b < 256 → (b &&& 128 = 128 ↔ 128 ≤ b) := by
  decide

theorem floatDecode_encode_append {n p : Nat} (hn : 0 < n) (hp : p < 2 ^ (8 * n))
    (rest : List Nat) :
    floatDecode n (floatEncode n p ++ rest) = .ok (p, rest) := by
  obtain ⟨k, rfl⟩ : ∃ k, n = k + 1 := ⟨n - 1, by omega⟩
  have hH : (2 : Nat) ^ (8 * (k + 1) - 1) = 128 * 256 ^ k := half_pow (by omega)
  have hW2 : (2 : Nat) ^ (8 * (k + 1)) = 2 * 2 ^ (8 * (k + 1) - 1) := double_pow (by omega)
  have hWpow : (2 : Nat) ^ (8 * (k + 1)) = 256 ^ (k + 1) := pow2_eq_pow256 (k + 1)
  have hpos : 0 < (256 : Nat) ^ k := Nat.pos_pow_of_pos k (by omega)
  have hvlt : floatEncVal (k + 1) p < 256 ^ (k + 1) := floatEncVal_lt (by omega) hp
  have hlen : (beBytes (k + 1) (floatEncVal (k + 1) p)).length = k + 1 := beBytes_length _ _
  have hd_lt : floatEncVal (k + 1) p / 256 ^ k < 256 := by
    rw [Nat.div_lt_iff_lt_mul hpos, mul_comm]
    rw [show (256 : Nat) ^ (k + 1) = 256 ^ k * 256 from by ring] at hvlt
    exact hvlt
  rw [floatEncode_eq (by omega) hp, floatDecode,
    if_neg (by rw [List.length_append, hlen]; omega)]
  simp only [List.take_left' hlen, List.drop_left' hlen, beBytes_headD hvlt]
  by_cases hsp : p < 2 ^ (8 * (k + 1) - 1)
  · have hV : floatEncVal (k + 1) p = p + 2 ^ (8 * (k + 1) - 1) := by
      rw [floatEncVal, if_pos hsp]
    have hge : 128 * 256 ^ k ≤ floatEncVal (k + 1) p := by
      rw [hV, ← hH]
      omega
    have hd128 : 128 ≤ floatEncVal (k + 1) p / 256 ^ k := by
      rw [Nat.le_div_iff_mul_le hpos]
      exact hge
    have hcond : (floatEncVal (k + 1) p / 256 ^ k &&& 128 == 128) = true :=
      beq_iff_eq.mpr ((and128_eq_128 _ hd_lt).mpr hd128)
    rw [if_pos hcond, flipHead_beBytes hvlt, if_neg (by omega), hV]
    have hdrop : p + 2 ^ (8 * (k + 1) - 1) - 128 * 256 ^ k = p := by
      rw [← hH]
      omega
    rw [hdrop, beVal_beBytes_of_lt (by rw [← hWpow]; exact hp)]
  · have hV : floatEncVal (k + 1) p = 2 ^ (8 * (k + 1)) - 1 - p := by
      rw [floatEncVal, if_neg hsp]
    have hlt128 : floatEncVal (k + 1) p / 256 ^ k < 128 := by
      rw [Nat.div_lt_iff_lt_mul hpos, ← hH]
      rw [hV]
      omega
    have hzero : floatEncVal (k + 1) p / 256 ^ k &&& 128 = 0 :=
      (and128_eq _ hd_lt).mpr hlt128
    have hcond : ¬(floatEncVal (k + 1) p / 256 ^ k &&& 128 == 128) = true := by
      rw [hzero]
      decide
    rw [if_neg hcond, complement_beBytes hvlt]
    have hback : 256 ^ (k + 1) - 1 - floatEncVal (k + 1) p = p := by
      rw [hV, ← hWpow]
      omega
    rw [hback, beVal_beBytes_of_lt (by rw [← hWpow]; exact hp)]

theorem arrayDecode_encode_append {N : Nat} {arr : List Nat} (harr : arr.length = N)
    (rest : List Nat) :
    arrayDecode N (arrayEncode arr ++ rest) = .ok (arr, rest) := by
  rw [arrayEncode, arrayDecode,
    if_neg (by rw [List.length_append, harr]; omega),
    List.take_left' harr, List.drop_left' harr]

theorem stringDecode_encode_append {s : List Nat} (hs : utf8Valid s = true)
    (hslen : s.length < 2 ^ 64) (rest : List Nat) :
    stringDecode (stringEncode s ++ rest) = .ok (s, rest) := by
  have hlen8 : (beBytes 8 s.length).length = 8 := beBytes_length 8 _
  have hpow : (2 : Nat) ^ 64 = 256 ^ 8 := pow2_eq_pow256 8
  have hslen' : s.length < 256 ^ 8 := by omega
  rw [stringEncode, List.append_assoc, stringDecode,
    if_neg (by rw [List.length_append, hlen8]; omega)]
  simp only [List.take_left' hlen8, List.drop_left' hlen8,
    beVal_beBytes_of_lt hslen']
  rw [if_neg (by rw [List.length_append]; omega),
    List.take_left' rfl, List.drop_left' rfl, if_pos hs]

theorem pairU64StrDecode_encode_append {v : Nat} (hv : v < 2 ^ 64)
    {s : List Nat} (hs : utf8Valid s = true) (hslen : s.length < 2 ^ 64)
    (rest : List Nat) :
    pairU64StrDecode (pairU64StrEncode v s ++ rest) = .ok ((v, s), rest) := by
  have hv' : v < 2 ^ (8 * 8) := hv
  have h1 : uintDecode 8 (uintEncode 8 v ++ (stringEncode s ++ rest)) =
      .ok (v, stringEncode s ++ rest) := uintDecode_encode_append hv' _
  have h2 : stringDecode (stringEncode s ++ rest) = .ok (s, rest) :=
    stringDecode_encode_append hs hslen _
  rw [pairU64StrEncode, List.append_assoc, pairU64StrDecode]
  simp only [h1, h2]

/-- C4: decoding an encoding succeeds and returns the original value with an
empty remainder, for each supported codec: fixed-width unsigned integers
(`n` bytes), signed integers, floats (on bit patterns), the unit key, the
fixed-size byte array `[u8; N]`, `String` (length header plus UTF-8 bytes,
with the in-Rust invariants that the content is valid UTF-8 and its length
fits a `usize`), and the tuple `(u64, String)` built by field
concatenation. -/
theorem decodeEncodeRoundTrip (n N : Nat) (hn : 0 < n)
    (x : Nat) (hx : x < 2 ^ (8 * n))
    (a : Int) (ha1 : -((2 : Int) ^ (8 * n - 1)) ≤ a) (ha2 : a < (2 : Int) ^ (8 * n - 1))
    (p : Nat) (hp : p < 2 ^ (8 * n))
    (arr : List Nat) (harr : arr.length = N)
    (s : List Nat) (hs : utf8Valid s = true) (hslen : s.length < 2 ^ 64)
    (v : Nat) (hv : v < 2 ^ 64) :
    uintDecode n (uintEncode n x) = .ok (x, []) ∧
    iintDecode n (iintEncode n a) = .ok (a, []) ∧
    floatDecode n (floatEncode n p) = .ok (p, []) ∧
    unitDecode unitEncode = .ok ((), []) ∧
    arrayDecode N (arrayEncode arr) = .ok (arr, []) ∧
    stringDecode (stringEncode s) = .ok (s, []) ∧
    pairU64StrDecode (pairU64StrEncode v s) = .ok ((v, s), []) := by
  refine ⟨?_, ?_, ?_, rfl, ?_, ?_, ?_⟩
  · have h := uintDecode_encode_append hx []
    rwa [List.append_nil] at h
  · have h := iintDecode_encode_append hn ha1 ha2 []
    rwa [List.append_nil] at h
  · have h := floatDecode_encode_append hn hp []
    rwa [List.append_nil] at h
  · have h := arrayDecode_encode_append harr []
    rwa [List.append_nil] at h
  · have h := stringDecode_encode_append hs hslen []
    rwa [List.append_nil] at h
  · have h := pairU64StrDecode_encode_append hv hs hslen []
    rwa [List.append_nil] at h

/-- Witness for C4 at byte width 1, `x = 5`, `a = -1`, `p = 3`,
`arr = [9, 9]`, `s = "hi"` and `v = 7`. -/
theorem decodeEncodeRoundTrip_witness :
    uintDecode 1 (uintEncode 1 5) = .ok (5, []) ∧
    iintDecode 1 (iintEncode 1 (-1)) = .ok (-1, []) ∧
    floatDecode 1 (floatEncode 1 3) = .ok (3, []) ∧
    unitDecode unitEncode = .ok ((), []) ∧
    arrayDecode 2 (arrayEncode [9, 9]) = .ok ([9, 9], []) ∧
    stringDecode (stringEncode [104, 105]) = .ok ([104, 105], []) ∧
    pairU64StrDecode (pairU64StrEncode 7 [104, 105]) = .ok ((7, [104, 105]), []) :=
  decodeEncodeRoundTrip 1 2 (by decide) 5 (by decide) (-1) (by decide) (by decide)
    3 (by decide) [9, 9] (by decide) [104, 105] (by decide) (by decide) 7 (by decide)

theorem tuplePrefixDeclared_mem (n K : Nat) :
    K ∈ tuplePrefixDeclared n ↔ 1 ≤ K ∧ K < n := by
  induction n with
  | zero => simp [tuplePrefixDeclared]
  | succ n ih =>
    rw [tuplePrefixDeclared]
    by_cases hn : n = 0
    · subst hn
      simp
      omega
    · rw [if_neg hn, List.mem_cons, ih]
      omega

/-- C5: for an `n`-field tuple, every non-empty strict prefix length `K` is
among the prefix lengths declared by the `impl_tuple_prefix!` macro, and
the concatenated encoding of the first `K` field encodings is a literal
byte-prefix of the concatenated encoding of all fields. -/
theorem tuplePrefix_correct (fields : List (List Nat)) (K : Nat)
    (h1 : 1 ≤ K) (h2 : K < fields.length) :
    K ∈ tuplePrefixDeclared fields.length ∧
    (tupleEncode (fields.take K)).isPrefixOf (tupleEncode fields) = true := by
  constructor
  · exact (tuplePrefixDeclared_mem _ _).mpr ⟨h1, h2⟩
  · rw [List.isPrefixOf_iff_prefix, tupleEncode, tupleEncode]
    conv_rhs => rw [← List.take_append_drop K fields]
    rw [List.flatten_append]
    exact List.prefix_append _ _

/-- Witness for C5 on a three-field tuple with `K = 1`. -/
theorem tuplePrefix_correct_witness :
    1 ∈ tuplePrefixDeclared ([[1], [2, 3], [4]] : List (List Nat)).length ∧
    (tupleEncode (([[1], [2, 3], [4]] : List (List Nat)).take 1)).isPrefixOf
      (tupleEncode [[1], [2, 3], [4]]) = true :=
  tuplePrefix_correct [[1], [2, 3], [4]] 1 (by decide) (by decide)

theorem btreeInsert_lookup (s : ByteStore) (k v : List Nat) :
    lookupKey (btreeInsert s k v) k = some v := by
  induction s with
  | nil =>
    show List.lookup k [(k, v)] = some v
    simp [List.lookup]
  | cons e rest ih =>
    obtain ⟨k2, v2⟩ := e
    rw [btreeInsert]
    split_ifs with hlt heq
    · show List.lookup k ((k, v) :: (k2, v2) :: rest) = some v
      simp [List.lookup]
    · show List.lookup k ((k, v) :: rest) = some v
      simp [List.lookup]
    · have hne : (k == k2) = false := beq_eq_false_iff_ne.mpr heq
      show List.lookup k ((k2, v2) :: btreeInsert rest k v) = some v
      rw [List.lookup, hne]
      exact ih

theorem btreeInsert_lookup_other (s : ByteStore) (k v k2 : List Nat) (hne : k2 ≠ k) :
    lookupKey (btreeInsert s k v) k2 = lookupKey s k2 := by
  have hbeq : (k2 == k) = false := beq_eq_false_iff_ne.mpr hne
  induction s with
  | nil =>
    show List.lookup k2 [(k, v)] = List.lookup k2 []
    simp [List.lookup, hbeq]
  | cons e rest ih =>
    obtain ⟨k3, v3⟩ := e
    rw [btreeInsert]
    split_ifs with hlt heq
    · show List.lookup k2 ((k, v) :: (k3, v3) :: rest) = List.lookup k2 ((k3, v3) :: rest)
      rw [List.lookup, hbeq]
    · subst heq
      show List.lookup k2 ((k, v) :: rest) = List.lookup k2 ((k, v3) :: rest)
      rw [List.lookup, List.lookup, hbeq]
    · show List.lookup k2 ((k3, v3) :: btreeInsert rest k v) =
        List.lookup k2 ((k3, v3) :: rest)
      rw [List.lookup, List.lookup]
      cases hc : k2 == k3
      · exact ih
      · rfl

theorem btreeInsert_idem (s : ByteStore) (k v : List Nat) :
    btreeInsert (btreeInsert s k v) k v = btreeInsert s k v := by
  induction s with
  | nil =>
    show btreeInsert [(k, v)] k v = [(k, v)]
    rw [btreeInsert, if_neg (by rw [lexLt_irrefl]; exact Bool.false_ne_true), if_pos rfl]
  | cons e rest ih =>
    obtain ⟨k2, v2⟩ := e
    rw [btreeInsert]
    split_ifs with hlt heq
    · rw [btreeInsert, if_neg (by rw [lexLt_irrefl]; exact Bool.false_ne_true), if_pos rfl]
    · rw [btreeInsert, if_neg (by rw [lexLt_irrefl]; exact Bool.false_ne_true), if_pos rfl]
    · rw [btreeInsert, if_neg hlt, if_neg heq, ih]

theorem countKey_eq_zero {s : ByteStore} {k : List Nat}
    (h : ∀ e ∈ s, e.1 ≠ k) : countKey s k = 0 := by
  rw [countKey, List.length_eq_zero, List.filter_eq_nil_iff]
  intro e he
  rw [Bool.not_eq_true, beq_eq_false_iff_ne]
  exact h e he

theorem btreeInsert_countKey {s : ByteStore} (hs : storeSorted s) (k v : List Nat) :
    countKey (btreeInsert s k v) k = 1 := by
  induction s with
  | nil =>
    show countKey [(k, v)] k = 1
    rw [countKey]
    simp [List.filter]
  | cons e rest ih =>
    obtain ⟨k2, v2⟩ := e
    rw [storeSorted, List.pairwise_cons] at hs
    obtain ⟨hhead, htail⟩ := hs
    rw [btreeInsert]
    split_ifs with hlt heq
    · have hzero : countKey ((k2, v2) :: rest) k = 0 := by
        apply countKey_eq_zero
        intro e he hek
        rcases List.mem_cons.mp he with he | he
        · subst hek
          rw [he] at hlt
          rw [lexLt_irrefl] at hlt
          cases hlt
        · have h2 := hhead e he
          have h3 : lexLt k e.1 = true := lexLt_trans hlt h2
          subst hek
          rw [lexLt_irrefl] at h3
          cases h3
      rw [countKey, List.filter_cons]
      simp only [beq_self_eq_true, if_pos]
      rw [countKey] at hzero
      simp [hzero]
    · subst heq
      have hzero : countKey rest k = 0 := by
        apply countKey_eq_zero
        intro e he hek
        have h2 := hhead e he
        subst hek
        rw [lexLt_irrefl] at h2
        cases h2
      rw [countKey, List.filter_cons]
      simp only [beq_self_eq_true, if_pos]
      rw [countKey] at hzero
      simp [hzero]
    · have hne : ((k2, v2).1 == k) = false := by
        rw [beq_eq_false_iff_ne]
        intro hc
        exact heq hc.symm
      rw [countKey, List.filter_cons, hne]
      rw [if_neg (by simp)]
      rw [← countKey]
      exact ih htail

/-- C6: persisting a record whose encoding succeeds is an upsert on the
reference backend: `persist` inserts the encoded pair; inserting the same
pair twice equals inserting it once; after the insert the store holds
exactly one entry for the encoded key, carrying the payload; re-inserting
under the same key with any payload still leaves exactly one entry holding
that latest payload; and entries under other keys are untouched. -/
theorem persist_upsert {ρ κ ε : Type} (tryEncode : ρ → Except ε (κ × List Nat))
    (encodeKey : κ → List Nat) (store : ByteStore) (r : ρ) (k : κ) (v : List Nat)
    (hs : storeSorted store) (he : tryEncode r = .ok (k, v)) :
    btreePersist tryEncode encodeKey store r =
      (.ok Unit.unit, btreeInsert store (encodeKey k) v) ∧
    btreeInsert (btreeInsert store (encodeKey k) v) (encodeKey k) v =
      btreeInsert store (encodeKey k) v ∧
    countKey (btreeInsert store (encodeKey k) v) (encodeKey k) = 1 ∧
    lookupKey (btreeInsert store (encodeKey k) v) (encodeKey k) = some v ∧
    (∀ v2, countKey (btreeInsert store (encodeKey k) v2) (encodeKey k) = 1 ∧
      lookupKey (btreeInsert store (encodeKey k) v2) (encodeKey k) = some v2) ∧
    (∀ k2, k2 ≠ encodeKey k →
      lookupKey (btreeInsert store (encodeKey k) v) k2 = lookupKey store k2) :=
  ⟨by rw [btreePersist, he],
    btreeInsert_idem store (encodeKey k) v,
    btreeInsert_countKey hs (encodeKey k) v,
    btreeInsert_lookup store (encodeKey k) v,
    fun v2 => ⟨btreeInsert_countKey hs (encodeKey k) v2,
      btreeInsert_lookup store (encodeKey k) v2⟩,
    fun k2 hne => btreeInsert_lookup_other store (encodeKey k) v k2 hne⟩

/-- Witness for C6 on a singleton store and the record `0` with payload
`[7]` under key encoding `[0]`. -/
theorem persist_upsert_witness :
    btreePersist (fun x : Nat => (.ok (x, [7]) : Except Nat (Nat × List Nat)))
        (fun x : Nat => [x]) [([0], [5])] 0 =
      (.ok Unit.unit, btreeInsert [([0], [5])] [0] [7]) ∧
    countKey (btreeInsert [([0], [5])] [0] [7]) [0] = 1 ∧
    lookupKey (btreeInsert [([0], [5])] [0] [7]) [0] = some [7] :=
  ⟨(persist_upsert (fun x : Nat => (.ok (x, [7]) : Except Nat (Nat × List Nat)))
      (fun x : Nat => [x]) [([0], [5])] 0 0 [7] (by simp [storeSorted]) rfl).1,
    (persist_upsert (fun x : Nat => (.ok (x, [7]) : Except Nat (Nat × List Nat)))
      (fun x : Nat => [x]) [([0], [5])] 0 0 [7] (by simp [storeSorted]) rfl).2.2.1,
    (persist_upsert (fun x : Nat => (.ok (x, [7]) : Except Nat (Nat × List Nat)))
      (fun x : Nat => [x]) [([0], [5])] 0 0 [7] (by simp [storeSorted]) rfl).2.2.2.1⟩

/-- C8: on the reference backend, `persist` of a record whose encoding
fails returns that encode error and leaves the store exactly as it was; the
insert happens only on the success path, where the encoded pair is
inserted. -/
theorem persist_error_leaves_store {ρ κ ε : Type}
    (tryEncode : ρ → Except ε (κ × List Nat)) (encodeKey : κ → List Nat)
    (store : ByteStore) (r : ρ) :
    (∀ e, tryEncode r = .error e →
      btreePersist tryEncode encodeKey store r = (.error (.encodeError e), store)) ∧
    (∀ k v, tryEncode r = .ok (k, v) →
      btreePersist tryEncode encodeKey store r =
        (.ok Unit.unit, btreeInsert store (encodeKey k) v)) := by
  constructor
  · intro e he
    rw [btreePersist, he]
  · intro k v he
    rw [btreePersist, he]

/-- Witness for C8: a failing encoder leaves the one-entry store unchanged;
a succeeding encoder inserts. -/
theorem persist_error_leaves_store_witness :
    btreePersist (fun _ : Nat => (.error 7 : Except Nat (Nat × List Nat)))
        (fun x : Nat => [x]) [([1], [2])] 0 = (.error (.encodeError 7), [([1], [2])]) ∧
    btreePersist (fun x : Nat => (.ok (x, [3]) : Except Nat (Nat × List Nat)))
        (fun x : Nat => [x]) [] 0 = (.ok Unit.unit, btreeInsert [] [0] [3]) :=
  ⟨(persist_error_leaves_store _ _ [([1], [2])] 0).1 7 rfl,
    (persist_error_leaves_store _ _ [] 0).2 0 [3] rfl⟩

theorem btreeRemove_absent {store : ByteStore} {k : List Nat}
    (h : k ∉ store.map Prod.fst) : btreeRemove store k = store := by
  induction store with
  | nil => rfl
  | cons e rest ih =>
    obtain ⟨k2, v2⟩ := e
    rw [List.map_cons, List.mem_cons] at h
    push_neg at h
    rw [btreeRemove, if_neg h.1, ih h.2]

/-- C10: on the reference backend the persist outcome is either success or
an encode error (the store-error constructor is uninhabited over
`Infallible`), and `remove` always succeeds; removing a key that is not in
the store leaves the store unchanged. -/
theorem writeOps_infallible {ρ κ ε : Type}
    (tryEncode : ρ → Except ε (κ × List Nat)) (encodeKey : κ → List Nat)
    (store : ByteStore) (r : ρ) (kq : κ) :
    ((btreePersist tryEncode encodeKey store r).1 = .ok Unit.unit ∨
      ∃ e, (btreePersist tryEncode encodeKey store r).1 = .error (.encodeError e)) ∧
    (@btreeRemoveOp κ ε encodeKey store kq).1 = .ok Unit.unit ∧
    (encodeKey kq ∉ store.map Prod.fst →
      (@btreeRemoveOp κ ε encodeKey store kq).2 = store) := by
  refine ⟨?_, rfl, ?_⟩
  · rw [btreePersist]
    cases he : tryEncode r with
    | error e => exact Or.inr ⟨e, rfl⟩
    | ok p => exact Or.inl rfl
  · intro h
    exact btreeRemove_absent h

/-- Witness for C10: removing the absent key `[0]` from a one-entry store
succeeds and changes nothing; a successful persist reports `ok`. -/
theorem writeOps_infallible_witness :
    (@btreeRemoveOp Nat Nat (fun x : Nat => [x]) [([1], [2])] 0).1 = .ok Unit.unit ∧
    (@btreeRemoveOp Nat Nat (fun x : Nat => [x]) [([1], [2])] 0).2 = [([1], [2])] ∧
    ((btreePersist (fun x : Nat => (.ok (x, [3]) : Except Nat (Nat × List Nat)))
        (fun x : Nat => [x]) [([1], [2])] 0).1 = .ok Unit.unit ∨
      ∃ e, (btreePersist (fun x : Nat => (.ok (x, [3]) : Except Nat (Nat × List Nat)))
        (fun x : Nat => [x]) [([1], [2])] 0).1 = .error (.encodeError e)) :=
  ⟨(writeOps_infallible (fun x : Nat => (.ok (x, [3]) : Except Nat (Nat × List Nat)))
      (fun x : Nat => [x]) [([1], [2])] 0 0).2.1,
    (writeOps_infallible (fun x : Nat => (.ok (x, [3]) : Except Nat (Nat × List Nat)))
      (fun x : Nat => [x]) [([1], [2])] 0 0).2.2 (by decide),
    (writeOps_infallible (fun x : Nat => (.ok (x, [3]) : Except Nat (Nat × List Nat)))
      (fun x : Nat => [x]) [([1], [2])] 0 0).1⟩

theorem runIter_append {κ κe ρ νe : Type}
    (decodeKey : List Nat → Except κe (κ × List Nat))
    (decodeRecord : κ → List Nat → Except νe ρ) (a b : ByteStore) :
    runIter decodeKey decodeRecord (a ++ b) =
      runIter decodeKey decodeRecord a ++ runIter decodeKey decodeRecord b := by
  induction a with
  | nil => rfl
  | cons e rest ih =>
    rw [List.cons_append]
    show decodeEntry decodeKey decodeRecord e :: runIter decodeKey decodeRecord (rest ++ b) = _
    rw [ih]
    rfl

theorem runIter_length {κ κe ρ νe : Type}
    (decodeKey : List Nat → Except κe (κ × List Nat))
    (decodeRecord : κ → List Nat → Except νe ρ) (l : ByteStore) :
    (runIter decodeKey decodeRecord l).length = l.length := by
  induction l with
  | nil => rfl
  | cons e rest ih =>
    show (decodeEntry decodeKey decodeRecord e :: runIter decodeKey decodeRecord rest).length = _
    rw [List.length_cons, ih, List.length_cons]

theorem runIter_eq_next {κ κe ρ νe : Type}
    (decodeKey : List Nat → Except κe (κ × List Nat))
    (decodeRecord : κ → List Nat → Except νe ρ) (l : ByteStore) :
    runIter decodeKey decodeRecord l =
      match btreeIterNext decodeKey decodeRecord l with
      | none => []
      | some (it, rest) => it :: runIter decodeKey decodeRecord rest := by
  cases l <;> rfl

/-- C7: during a scan each stored entry is decoded independently; an entry
whose key fails to decode contributes exactly one key-decode error item in
its own position, the entries before and after it are still decoded, the
number of items always equals the number of entries (the iterator never
stops early), and an entry whose key decodes but whose value fails
contributes a value-decode error item. -/
theorem scanDecodeIndependence {κ κe ρ νe : Type}
    (decodeKey : List Nat → Except κe (κ × List Nat))
    (decodeRecord : κ → List Nat → Except νe ρ)
    (pre post : ByteStore) (e : List Nat × List Nat) (err : κe)
    (herr : decodeKey e.1 = .error err) :
    decodeEntry decodeKey decodeRecord e = .error (.keyDecodeErr err) ∧
    runIter decodeKey decodeRecord (pre ++ e :: post) =
      runIter decodeKey decodeRecord pre ++
        .error (.keyDecodeErr err) :: runIter decodeKey decodeRecord post ∧
    (runIter decodeKey decodeRecord (pre ++ e :: post)).length = (pre ++ e :: post).length ∧
    (∀ e2 key rem verr, decodeKey e2.1 = .ok (key, rem) →
      decodeRecord key e2.2 = .error verr →
      decodeEntry decodeKey decodeRecord e2 = .error (.valueDecodeError verr)) ∧
    btreeIterNext decodeKey decodeRecord (e :: post) =
      some (.error (.keyDecodeErr err), post) := by
  have hde : decodeEntry decodeKey decodeRecord e = .error (.keyDecodeErr err) := by
    rw [decodeEntry, herr]
  refine ⟨hde, ?_, runIter_length _ _ _, ?_, ?_⟩
  · rw [runIter_append]
    show _ ++ decodeEntry decodeKey decodeRecord e :: runIter decodeKey decodeRecord post = _
    rw [hde]
  · intro e2 key rem verr hk hv
    rw [decodeEntry, hk]
    show (match decodeRecord key e2.2 with
      | .ok record => (Except.ok record : Except (ReadStoreError Empty κe νe) ρ)
      | .error err => .error (.valueDecodeError err)) = _
    rw [hv]
  · show some (decodeEntry decodeKey decodeRecord e, post) = _
    rw [hde]

/-- Witness for C7: a three-entry store where the middle entry's key fails
to decode still yields three items, with the error in the middle. -/
theorem scanDecodeIndependence_witness :
    decodeEntry (fun l : List Nat => if l = [9]
        then (.error 3 : Except Nat (Nat × List Nat)) else .ok (0, l))
      (fun _ v => (.ok v.length : Except Nat Nat)) ([9], [7]) =
        .error (.keyDecodeErr 3) ∧
    (runIter (fun l : List Nat => if l = [9]
        then (.error 3 : Except Nat (Nat × List Nat)) else .ok (0, l))
      (fun _ v => (.ok v.length : Except Nat Nat))
      ([([1], [2])] ++ ([9], [7]) :: [([4], [5])])).length =
        ([([1], [2])] ++ (([9], [7]) : List Nat × List Nat) :: [([4], [5])]).length :=
  ⟨(scanDecodeIndependence _ _ [([1], [2])] [([4], [5])] ([9], [7]) 3 rfl).1,
    (scanDecodeIndependence _ _ [([1], [2])] [([4], [5])] ([9], [7]) 3 rfl).2.2.1⟩

end Bobsled
